import Mathlib

/-!
# Shamir secret sharing (laraconda/shamir): embedding of `shamir.c` and `src/main.c`

The C functions are translated into Lean functions of the same names.

* `mpz_t` values are arbitrary-precision integers (`Int`).
* A run that calls `exit`, or that touches memory outside the buffer it
  allocated, ends with a `Stop`; every function that can end so returns
  `Except Stop _`.
* Everything a run of `shamir.c` receives from outside the file is a field of
  `Env`: the constant `MPZ_LIMIT` of `limit.h`, the results of `open` and
  `read` on `/dev/urandom`, the stream of GMP's default generator, the
  result of converting an out-of-range `double` to `unsigned long`, and the
  `double` that `pow` returns for a power that no `double` holds.
* Buffers obtained from `malloc` are lists of the allocated length; every
  access goes through `load` or `store`, which check the index.
* The platform is x86-64 Linux, as the include of `x86_64-linux-gnu/gmp.h`
  fixes it: `int` has 32 bits, `long` and `unsigned long` have 64, `char` is signed.
* Three statements of the sources have no meaning that C defines. The shift
  of an `int` by 32 bits or more in `bytes_to_ulong` is modelled as the x86-64
  shift instruction; the conversion of a `double` beyond `2^64` is a field of
  `Env`; the order of the index and the increment in
  `newname_[i+j] = ENCRYPTED_EXT[j++]` is a parameter of `get_name_encrypted_file`.
-/

namespace Shamir

/-! ## Data model -/

/-- GMP integers: arbitrary-precision signed integers. -/
abbrev mpz_t := Int

/-- How a run ends when it does not return: `exit(code)` after writing `msg`
to stderr, or an access outside an allocated buffer. -/
inductive Stop where
  | exit (code : Int) (msg : String)
  | fault
  deriving DecidableEq, Repr

/-- The type `struct SHARE_` of `shamir.c`. -/
structure SHARE_ where
  x : mpz_t
  y : mpz_t
  deriving DecidableEq, Repr

/-- State of a GMP random generator: the stream of raw values it will
deliver and how many of them have been taken. -/
structure gmp_randstate_t where
  stream : Nat → Nat
  taken : Nat

/-- What one run receives from outside `shamir.c`. -/
structure Env where
  /-- The constant `MPZ_LIMIT` of `limit.h` (not among the sources). -/
  MPZ_LIMIT : Nat
  /-- Value returned by `open(URANDOM, O_RDONLY)`. -/
  open_result : Int
  /-- Value returned by `read(rdata, rd, sizeof rd)`. -/
  read_result : Int
  /-- Bytes the device delivers, as values of `char`. -/
  device : List Int
  /-- Content of the local array `rd` before the read (indeterminate in C). -/
  rd_before : List Int
  /-- Value of `errno` when `error_handling_urandom` runs. -/
  errno : Int
  /-- GMP's default generator: the raw stream it delivers for a seed. -/
  gmp_default : Nat → Nat → Nat
  /-- Result of converting to `unsigned long` a `double` that is not below
  `2^64` (`none` stands for infinity); C leaves this conversion undefined. -/
  ulong_of_big : Option Nat → Nat
  /-- The `double` that `pow(x, i)` returns when no `double` holds `x^i` (`none`
  stands for infinity): the C library returns a `double` next to the power,
  which is not always the nearest one. -/
  pow_inexact : Nat → Nat → Option Nat

/-- What `create_shares` prints: the polynomial, then the shares. -/
structure Printed where
  polynomial : List mpz_t
  shares : List SHARE_
  deriving DecidableEq, Repr

def EINVAL : Int := 22

/-! ## Memory -/

/-- Buffer that `malloc(count * sizeof elem)` returns: `count` elements, none
when `count` is not positive. -/
def malloc {α : Type} (init : α) (count : Int) : List α :=
  List.replicate count.toNat init

/-- Read of `buf[i]`. -/
def load {α : Type} (buf : List α) (i : Nat) : Except Stop α :=
  match buf.get? i with
  | some v => .ok v
  | none => .error .fault

/-- Write of `buf[i]`. -/
def store {α : Type} (buf : List α) (i : Nat) (v : α) : Except Stop (List α) :=
  if i < buf.length then .ok (buf.set i v) else .error .fault

/-! ## `bytes_to_ulong`, `read_ulong_urandom` -/

/-- Two's complement value of the low 32 bits (`int` on x86-64). -/
def wrap_int (v : Int) : Int := (v + 2 ^ 31) % 2 ^ 32 - 2 ^ 31

/-- The expression `b << c` on `int` as the x86-64 shift instruction computes
it: the count is taken modulo 32 and the result keeps the low 32 bits. -/
def shl_int (b : Int) (c : Nat) : Int := wrap_int (b * 2 ^ (c % 32))

/-- Loop of `bytes_to_ulong`: `n += bytes[i] << i*8`, the sum kept in an
`unsigned long long`. -/
def bytes_to_ulong_loop (bytes : List Int) : Nat → Nat → Nat → Nat
  | 0, _, n => n
  | k + 1, i, n =>
    bytes_to_ulong_loop bytes k (i + 1)
      (((n : Int) + shl_int (bytes.getD i 0) (i * 8)) % 2 ^ 64).toNat

/-- The function `bytes_to_ulong`: `sizeof bytes` is the size of a pointer, 8. -/
def bytes_to_ulong (bytes : List Int) : Nat :=
  bytes_to_ulong_loop bytes 8 0 0

/-- The function `error_handling_urandom`: writes the message and exits with `errno`. -/
def error_handling_urandom {α : Type} (env : Env) : Except Stop α :=
  .error (.exit env.errno "Error interacting with/dev/urandom: ")

/-- The array `rd` after `read` delivered `k` bytes into it: the first `k`
bytes come from the device, the others are what the array held before. -/
def rd_after (env : Env) (k : Nat) : List Int :=
  (List.range 8).map fun i => if i < k then env.device.getD i 0 else env.rd_before.getD i 0

/-- The function `read_ulong_urandom`. -/
def read_ulong_urandom (env : Env) : Except Stop Nat :=
  if env.open_result < 0 then
    error_handling_urandom env
  else if env.read_result < 0 then
    error_handling_urandom env
  else
    .ok (bytes_to_ulong (rd_after env env.read_result.toNat))

/-! ## Polynomial -/

/-- GMP's `mpz_urandomb(rop, state, n)`: the next value of the stream, in `[0, 2^n)`. -/
def mpz_urandomb (state : gmp_randstate_t) (n : Nat) : mpz_t × gmp_randstate_t :=
  (((state.stream state.taken % 2 ^ n : Nat) : Int), { state with taken := state.taken + 1 })

/-- GMP's `gmp_randinit_default` followed by `gmp_randseed_ui`. -/
def gmp_randseed_ui (env : Env) (seed : Nat) : gmp_randstate_t :=
  { stream := env.gmp_default seed, taken := 0 }

/-- Loop of `fill_polynomial`, `for (i=1; i < nterms; i++)`. -/
def fill_polynomial_loop (limit : Nat) :
    Nat → Nat → List mpz_t → gmp_randstate_t → Except Stop (List mpz_t × gmp_randstate_t)
  | 0, _, poly, state => .ok (poly, state)
  | k + 1, i, poly, state =>
    match store poly i 0 with
    | .error e => .error e
    | .ok poly1 =>
      let (v, state1) := mpz_urandomb state limit
      match store poly1 i v with
      | .error e => .error e
      | .ok poly2 => fill_polynomial_loop limit k (i + 1) poly2 state1

/-- The function `fill_polynomial`. -/
def fill_polynomial (poly : List mpz_t) (state : gmp_randstate_t) (nterms : Int)
    (limit : Nat) (secret : mpz_t) : Except Stop (List mpz_t × gmp_randstate_t) :=
  match store poly 0 0 with
  | .error e => .error e
  | .ok poly1 =>
    match store poly1 0 secret with
    | .error e => .error e
    | .ok poly2 => fill_polynomial_loop limit (nterms - 1).toNat 1 poly2 state

/-- The function `clear_polynomial`: visits `poly[0..nterms)`. -/
def clear_polynomial (poly : List mpz_t) : Nat → Nat → Except Stop Unit
  | 0, _ => .ok ()
  | k + 1, i =>
    match load poly i with
    | .error e => .error e
    | .ok _ => clear_polynomial poly k (i + 1)

/-- Loop of `print_polynomial`: the coefficients written, in order. -/
def print_polynomial_loop (poly : List mpz_t) : Nat → Nat → List mpz_t → Except Stop (List mpz_t)
  | 0, _, out => .ok out
  | k + 1, i, out =>
    match load poly i with
    | .error e => .error e
    | .ok c => print_polynomial_loop poly k (i + 1) (out ++ [c])

/-- The function `print_polynomial`. -/
def print_polynomial (poly : List mpz_t) (nterms : Int) : Except Stop (List mpz_t) :=
  print_polynomial_loop poly nterms.toNat 0 []

/-- The function `build_polynomial`. -/
def build_polynomial (env : Env) (polynomial : List mpz_t) (nterms : Int) (secret : mpz_t) :
    Except Stop (List mpz_t) :=
  match read_ulong_urandom env with
  | .error e => .error e
  | .ok seed =>
    match fill_polynomial polynomial (gmp_randseed_ui env seed) nterms env.MPZ_LIMIT secret with
    | .error e => .error e
    | .ok (poly, _) => .ok poly

/-! ## Evaluation -/

/-- Number of binary digits of `v`; `fuel` bounds the number of halvings. -/
def bit_length : Nat → Nat → Nat
  | 0, _ => 0
  | fuel + 1, v => if v = 0 then 0 else bit_length fuel (v / 2) + 1

/-- Nearest `double` to a natural number (round to nearest, ties to even, 53
significant bits), as a natural number. -/
def round_double (v : Nat) : Nat :=
  if v < 2 ^ 53 then v
  else
    let e := bit_length v v - 53
    let q := v / 2 ^ e
    let r := v % 2 ^ e
    let q1 := if 2 ^ (e - 1) < r ∨ (r = 2 ^ (e - 1) ∧ q % 2 = 1) then q + 1 else q
    q1 * 2 ^ e

/-- The `double` nearest to `x^i`, `none` for infinity (a value of more than
1024 binary digits). -/
def nearest_pow (x i : Nat) : Option Nat :=
  if bit_length (round_double (x ^ i)) (round_double (x ^ i)) ≤ 1024 then
    some (round_double (x ^ i))
  else none

/-- The call `pow(x, i)` of `math.h` on an `unsigned int` and an `int` that is
not negative. A power that a `double` holds, one that rounding leaves as it
is, is returned exactly (`none` for infinity); for a power that no `double`
holds the result is the one the environment gives. -/
def pow (env : Env) (x i : Nat) : Option Nat :=
  if round_double (x ^ i) = x ^ i then nearest_pow x i else env.pow_inexact x i

/-- Conversion of the `double` that `pow` returned to the `unsigned long`
argument of `mpz_mul_ui`. -/
def ulong_of_double (env : Env) (d : Option Nat) : Nat :=
  match d with
  | some v => if v < 2 ^ 64 then v else env.ulong_of_big d % 2 ^ 64
  | none => env.ulong_of_big d % 2 ^ 64

/-- Loop of `eval_polynomial`: `term_res = poly[i] * pow(x, i); res = term_res + res`. -/
def eval_polynomial_loop (env : Env) (x : Nat) (poly : List mpz_t) :
    Nat → Nat → mpz_t → Except Stop mpz_t
  | 0, _, res => .ok res
  | k + 1, i, res =>
    match load poly i with
    | .error e => .error e
    | .ok c => eval_polynomial_loop env x poly k (i + 1) (c * (ulong_of_double env (pow env x i) : Int) + res)

/-- The function `eval_polynomial`; `res` is the content of `*res` at the call. -/
def eval_polynomial (env : Env) (x : Nat) (poly : List mpz_t) (nterms : Int) (res : mpz_t) :
    Except Stop mpz_t :=
  eval_polynomial_loop env x poly nterms.toNat 0 res

/-! ## Shares -/

/-- Loop of `print_shares`: the pairs written, in order. -/
def print_shares_loop (shares : List SHARE_) : Nat → Nat → List SHARE_ → Except Stop (List SHARE_)
  | 0, _, out => .ok out
  | k + 1, i, out =>
    match load shares i with
    | .error e => .error e
    | .ok s => print_shares_loop shares k (i + 1) (out ++ [s])

/-- The function `print_shares`. -/
def print_shares (shares : List SHARE_) (n : Int) : Except Stop (List SHARE_) :=
  print_shares_loop shares n.toNat 0 []

/-- The function `free_shares`: visits `shares[0..n)`. -/
def free_shares (shares : List SHARE_) : Nat → Nat → Except Stop Unit
  | 0, _ => .ok ()
  | k + 1, i =>
    match load shares i with
    | .error e => .error e
    | .ok _ => free_shares shares k (i + 1)

/-- Loop of `create_shares`, `for (i=0; i<nshares; i++)`: `shares[i].x = i + 1`
and `shares[i].y` is zero when `eval_polynomial` starts. -/
def create_shares_loop (env : Env) (polynomial : List mpz_t) (nterms : Int) :
    Nat → Nat → List SHARE_ → Except Stop (List SHARE_)
  | 0, _, shares => .ok shares
  | k + 1, i, shares =>
    match store shares i ⟨0, 0⟩ with
    | .error e => .error e
    | .ok shares1 =>
      match eval_polynomial env (i + 1) polynomial nterms 0 with
      | .error e => .error e
      | .ok y =>
        match store shares1 i ⟨((i + 1 : Nat) : Int), y⟩ with
        | .error e => .error e
        | .ok shares2 => create_shares_loop env polynomial nterms k (i + 1) shares2

/-- The function `create_shares`. The loop counter is an `unsigned int`, so the
bound `nshares` is compared as a value modulo `2^32`. -/
def create_shares (env : Env) (nshares min : Int) (secret : mpz_t) : Except Stop Printed :=
  if nshares < min then
    .error (.exit EINVAL "The number of shares cant be less than min.")
  else
    let nterms := min - 1
    match build_polynomial env (malloc (0 : mpz_t) nterms) nterms secret with
    | .error e => .error e
    | .ok polynomial =>
      match print_polynomial polynomial nterms with
      | .error e => .error e
      | .ok shown =>
        match create_shares_loop env polynomial nterms (nshares % 2 ^ 32).toNat 0
            (malloc (⟨0, 0⟩ : SHARE_) nshares) with
        | .error e => .error e
        | .ok shares =>
          match print_shares shares nshares with
          | .error e => .error e
          | .ok pairs =>
            match clear_polynomial polynomial nterms.toNat 0 with
            | .error e => .error e
            | .ok _ =>
              match free_shares shares nshares.toNat 0 with
              | .error e => .error e
              | .ok _ => .ok ⟨shown, pairs⟩

/-- Modelled from the spec: the Reconstructor, which the sources do not contain
(the `reader` of `shamir.c` only echoes the points it reads). Lagrange
interpolation at `x = 0`: the sum over the shares `i` of
`y_i * prod_{j != i} (0 - x_j) / (x_i - x_j)`, computed in the rationals. -/
def reconstruct (shares : List SHARE_) : ℚ :=
  (shares.map fun s =>
    (s.y : ℚ) * ((shares.filter fun r => r.x ≠ s.x).map fun r =>
      ((0 : ℚ) - r.x) / ((s.x : ℚ) - r.x)).prod).sum

/-- An environment in which `/dev/urandom` opens and delivers 8 bytes, the
generator delivers `draws k` as its k-th value, `MPZ_LIMIT` is `limit`, and
`pow` returns the nearest `double` for a power that no `double` holds. -/
def env_with (limit : Nat) (draws : Nat → Nat) : Env :=
  { MPZ_LIMIT := limit
    open_result := 3
    read_result := 8
    device := [1, 2, 3, 4, 5, 6, 7, 8]
    rd_before := [0, 0, 0, 0, 0, 0, 0, 0]
    errno := 0
    gmp_default := fun _ => draws
    ulong_of_big := fun _ => 0
    pow_inexact := nearest_pow }

/-! ## `src/main.c`: argument validation -/

def INT_MAX : Int := 2147483647

def LONG_MAX : Int := 9223372036854775807

def LONG_MIN : Int := -9223372036854775808

def ERANGE : Int := 34

def MAX_LEN_FILENAME : Nat := 100

/-- The function `error_message`: writes `msg` to stderr and exits with `errcode`. -/
def error_message {α : Type} (errcode : Int) (msg : String) : Except Stop α :=
  .error (.exit errcode msg)

/-- White space as `isspace` of `ctype.h` sees it in the C locale. -/
def isspace (c : Char) : Bool :=
  c = ' ' || c = '\t' || c = '\n' || c = '\x0b' || c = '\x0c' || c = '\r'

/-- What a call `strtol(str, &p, 10)` leaves behind: the value returned, the
characters from `p` on, and `errno`. -/
structure strtol_result where
  value : Int
  rest : List Char
  errno : Int
  deriving DecidableEq, Repr

/-- Value of a run of decimal digits. -/
def digits_value (ds : List Char) : Nat :=
  ds.foldl (fun acc c => 10 * acc + (c.toNat - 48)) 0

/-- The call `strtol(str, &p, 10)` of `stdlib.h` with `errno` zero before it:
white space is skipped, an optional sign and the longest run of digits are
read; without a digit nothing is consumed and 0 is returned; a value outside
`long` is clamped and `errno` becomes `ERANGE`. -/
def strtol (str : List Char) : strtol_result :=
  let s1 := str.dropWhile isspace
  let negative := s1.head? = some '-'
  let s2 := if s1.head? = some '-' ∨ s1.head? = some '+' then s1.tail else s1
  let ds := s2.takeWhile Char.isDigit
  let v : Int := if negative then -(digits_value ds : Int) else (digits_value ds : Int)
  if ds = [] then ⟨0, str, 0⟩
  else if LONG_MAX < v then ⟨LONG_MAX, s2.dropWhile Char.isDigit, ERANGE⟩
  else if v < LONG_MIN then ⟨LONG_MIN, s2.dropWhile Char.isDigit, ERANGE⟩
  else ⟨v, s2.dropWhile Char.isDigit, 0⟩

/-- The function `str_to_int`. -/
def str_to_int (str : List Char) : Except Stop Int :=
  let r := strtol str
  if r.errno ≠ 0 then error_message r.errno "Numerical result out of range"
  else if r.rest ≠ [] then error_message 1 "Faulty string"
  else if INT_MAX < r.value then error_message 1 "Number too large!"
  else .ok r.value

/-- The function `validate_file`; `fopen_ok` tells whether `fopen(filename, mode)`
returns a stream. -/
def validate_file (fopen_ok : List Char → Bool) (filename : List Char) (errmsg : String) :
    Except Stop Unit :=
  if fopen_ok filename then .ok () else error_message 1 errmsg

/-- The function `validate_cipher_option`. The results of `str_to_int` are
stored in `int` variables, which keep the low 32 bits. -/
def validate_cipher_option (fopen_ok : List Char → Bool) (argc : Int)
    (argv : List (List Char)) : Except Stop Unit :=
  if argc ≠ 6 then error_message 1 "Not enough arguments!"
  else
    match load argv 1, load argv 5 with
    | .ok a1, .ok a5 =>
      if ¬ (a1.length < MAX_LEN_FILENAME ∧ a5.length < MAX_LEN_FILENAME) then
        error_message 1 "Filename too long."
      else
        match load argv 3 with
        | .error e => .error e
        | .ok a3 =>
          match str_to_int a3 with
          | .error e => .error e
          | .ok n =>
            let nshares := wrap_int n
            if nshares ≤ 2 then error_message 1 "Too few shares!"
            else
              match load argv 4 with
              | .error e => .error e
              | .ok a4 =>
                match str_to_int a4 with
                | .error e => .error e
                | .ok m =>
                  let min_shares := wrap_int m
                  if ¬ (1 < min_shares ∧ min_shares ≤ nshares) then
                    error_message 1 "Min shares value is wrong"
                  else validate_file fopen_ok a5 "Error reading file to encrypt"
    | _, _ => .error .fault

/-- One decimal digit as a character. -/
def digit_char (d : Nat) : Char :=
  match d with
  | 0 => '0' | 1 => '1' | 2 => '2' | 3 => '3' | 4 => '4'
  | 5 => '5' | 6 => '6' | 7 => '7' | 8 => '8' | _ => '9'

/-- The decimal numeral of a natural number, as a command line carries it. -/
def decimal (n : Nat) : List Char :=
  if n = 0 then ['0'] else ((Nat.digits 10 n).map digit_char).reverse

/-! ## Closed forms used to state what the loops compute -/

/-- Value `mpz_urandomb` delivers from the j-th element of the stream. -/
def draw (stream : Nat → Nat) (limit j : Nat) : mpz_t := ((stream j % 2 ^ limit : Nat) : Int)

/-- The `unsigned long` that `eval_polynomial` multiplies coefficient `i` by. -/
def multiplier (env : Env) (x i : Nat) : Nat := ulong_of_double env (pow env x i)

/-- Sum of the terms `eval_polynomial` adds for the coefficients `cs`, the
first of which has index `i`. -/
def weighted_sum (env : Env) (x : Nat) : Nat → List mpz_t → mpz_t
  | _, [] => 0
  | i, c :: cs => c * (multiplier env x i : Int) + weighted_sum env x (i + 1) cs

/-- The polynomial `fill_polynomial` leaves in a buffer of `nterms` elements:
the secret, then `nterms - 1` successive draws. -/
def coefficients (env : Env) (seed : Nat) (nterms : Nat) (secret : mpz_t) : List mpz_t :=
  secret :: (List.range (nterms - 1)).map fun j => draw (env.gmp_default seed) env.MPZ_LIMIT j

/-- The exact value `c0 + c1*x + ... + c(k-1)*x^(k-1)` of a polynomial at `x`. -/
def polynomial_value (poly : List mpz_t) (x : Nat) : mpz_t :=
  ((List.range poly.length).map fun i => poly.getD i 0 * (x : Int) ^ i).sum

/-- The share `create_shares` stores at position `i` of its array for the
polynomial `poly`: `x = i + 1` and `y` the weighted sum at that `x`. -/
def share_at (env : Env) (poly : List mpz_t) (i : Nat) : SHARE_ :=
  ⟨((i + 1 : Nat) : Int), weighted_sum env (i + 1) 0 poly⟩

/-- The seed `read_ulong_urandom` returns when it returns. -/
def seed_of (env : Env) : Nat := bytes_to_ulong (rd_after env env.read_result.toNat)

/-- What `create_shares` prints when it runs to its end. -/
def printed_of (env : Env) (nshares min : Int) (secret : mpz_t) : Printed :=
  ⟨coefficients env (seed_of env) (min - 1).toNat secret,
    (List.range nshares.toNat).map
      (share_at env (coefficients env (seed_of env) (min - 1).toNat secret))⟩

/-! ## `src/main.c`: password and name of the encrypted file -/

def MAX_PASS_LEN : Nat := 3

/-- Loop of `get_password`: `stdin` holds the characters `getchar` delivers, and
`EOF` follows the last one. Each character is stored at `(*pass)[i++]` before
the length is tested. -/
def get_password_loop : List Char → Nat → List Char → Except Stop (List Char × Nat)
  | [], i, pass => .ok (pass, i)
  | c :: rest, i, pass =>
    if c = '\n' then .ok (pass, i)
    else
      match store pass i c with
      | .error e => .error e
      | .ok pass1 =>
        if MAX_PASS_LEN < i + 1 then .error (.exit 1 "Password too long")
        else get_password_loop rest (i + 1) pass1

/-- The function `get_password`: the buffer `*pass` and `*keysize` when it returns. -/
def get_password (stdin : List Char) (pass : List Char) : Except Stop (List Char × Int) :=
  match get_password_loop stdin 0 pass with
  | .error e => .error e
  | .ok (pass1, i) =>
    match store pass1 i '\x00' with
    | .error e => .error e
    | .ok pass2 => .ok (pass2, (i : Int))

/-- The macro `ENCRYPTED_EXT`. -/
def ENCRYPTED_EXT : List Char := ['.', 'a', 'e', 's']

/-- Length of a C string: the characters before the first NUL. -/
def strlen (s : List Char) : Nat := (s.takeWhile fun c => c ≠ '\x00').length

/-- The function `get_namesize_encrypted_file`. -/
def get_namesize_encrypted_file (original_name : List Char) : Int :=
  ((strlen original_name + strlen ENCRYPTED_EXT + 1 : Nat) : Int)

/-- First loop of `get_name_encrypted_file`: `newname_[i] = original_name[i]`
while `original_name[i]` is not NUL. A read at the end of the list reads the
terminating NUL. -/
def copy_name_loop (original_name : List Char) :
    Nat → Nat → List Char → Except Stop (List Char × Nat)
  | 0, i, newname_ => .ok (newname_, i)
  | k + 1, i, newname_ =>
    if original_name.getD i '\x00' = '\x00' then .ok (newname_, i)
    else
      match store newname_ i (original_name.getD i '\x00') with
      | .error e => .error e
      | .ok newname1 => copy_name_loop original_name k (i + 1) newname1

/-- Second loop of `get_name_encrypted_file`, `newname_[i+j] = ENCRYPTED_EXT[j++]`.
The statement reads `j` for the index and increments it without a sequence
point between the two, which C leaves undefined. With `index_first` the index
is computed from the old `j`; without it the right side and its increment come
first, which is the order GCC compiles. -/
def append_ext_loop (index_first : Bool) (i : Nat) :
    Nat → Nat → List Char → Except Stop (List Char × Nat)
  | 0, j, newname_ => .ok (newname_, j)
  | k + 1, j, newname_ =>
    match store newname_ (if index_first then i + j else i + (j + 1))
        (ENCRYPTED_EXT.getD j '\x00') with
    | .error e => .error e
    | .ok newname1 => append_ext_loop index_first i k (j + 1) newname1

/-- Loop of `strcpy(dst, src)`: characters are copied up to and including the
first NUL of `src`. -/
def strcpy_loop (src : List Char) : Nat → Nat → List Char → Except Stop (List Char)
  | 0, _, _ => .error .fault
  | k + 1, i, dst =>
    match load src i with
    | .error e => .error e
    | .ok c =>
      match store dst i c with
      | .error e => .error e
      | .ok dst1 => if c = '\x00' then .ok dst1 else strcpy_loop src k (i + 1) dst1

/-- The function `strcpy` of `string.h` on the buffers `dst` and `src`. -/
def strcpy (dst src : List Char) : Except Stop (List Char) :=
  strcpy_loop src (src.length + 1) 0 dst

/-- The array `newname_` of `get_name_encrypted_file` when `strcpy` is reached.
`stack i` is what the array holds at index `i` before it is written. -/
def newname_of (index_first : Bool) (stack : Nat → Char) (original_name : List Char) :
    Except Stop (List Char) :=
  let newname_ := (List.range (get_namesize_encrypted_file original_name).toNat).map stack
  match copy_name_loop original_name (original_name.length + 1) 0 newname_ with
  | .error e => .error e
  | .ok (newname1, i) =>
    match append_ext_loop index_first i (strlen ENCRYPTED_EXT) 0 newname1 with
    | .error e => .error e
    | .ok (newname2, j) => store newname2 (i + j) '\x00'

/-- The function `get_name_encrypted_file`: the buffer `*encname` when it returns. -/
def get_name_encrypted_file (index_first : Bool) (stack : Nat → Char)
    (original_name : List Char) (encname : List Char) : Except Stop (List Char) :=
  match newname_of index_first stack original_name with
  | .error e => .error e
  | .ok newname3 => strcpy encname newname3

/-! ## Words of the specification -/

/-- Horner's nested evaluation `c0 + x*(c1 + x*(... + x*c(k-1)))`. -/
def horner (x : Int) : List mpz_t → mpz_t
  | [] => 0
  | c :: cs => c + x * horner x cs

/-- The value of a byte `0..255` held in a `char`, which is signed on x86-64. -/
def char_of_byte (b : Nat) : Int := if b < 128 then (b : Int) else (b : Int) - 256

/-- The little-endian number `b0 + b1*2^8 + b2*2^16 + ...` of a list of bytes. -/
def little_endian : List Nat → Nat
  | [] => 0
  | b :: bs => b + 2 ^ 8 * little_endian bs

/-! ## The loops in closed form -/

theorem store_ok {α : Type} (buf : List α) (i : Nat) (v : α) (h : i < buf.length) :
    store buf i v = .ok (buf.set i v) := by
  simp [store, h]

theorem store_mid {α : Type} (pre suf : List α) (a v : α) :
    store (pre ++ a :: suf) pre.length v = .ok (pre ++ v :: suf) := by
  simp [store]

theorem load_mid {α : Type} (pre suf : List α) (a : α) :
    load (pre ++ a :: suf) pre.length = .ok a := by
  have h : (pre ++ a :: suf).get? pre.length = some a := by
    rw [List.get?_eq_getElem?, List.getElem?_append_right (le_refl _)]
    simp
  simp only [load, h]

theorem store_nil {α : Type} (i : Nat) (v : α) : store ([] : List α) i v = .error .fault := by
  simp [store]

theorem fill_polynomial_loop_eq (limit : Nat) (k : Nat) :
    ∀ (pre mid suf : List mpz_t) (state : gmp_randstate_t), mid.length = k →
      fill_polynomial_loop limit k pre.length (pre ++ mid ++ suf) state =
        .ok (pre ++ (List.range k).map (fun j => draw state.stream limit (state.taken + j)) ++ suf,
          { state with taken := state.taken + k }) := by
  induction k with
  | zero =>
    intro pre mid suf state h
    have : mid = [] := List.length_eq_zero.mp h
    subst this
    simp [fill_polynomial_loop]
  | succ k ih =>
    intro pre mid suf state h
    obtain ⟨a, mid1, rfl⟩ := List.exists_cons_of_length_eq_add_one h
    have h1 : mid1.length = k := by simpa using h
    have e1 : pre ++ a :: mid1 ++ suf = pre ++ a :: (mid1 ++ suf) := by simp
    rw [fill_polynomial_loop, e1, store_mid]
    simp only [mpz_urandomb, store_mid]
    have e2 : pre ++ ((state.stream state.taken % 2 ^ limit : Nat) : Int) :: (mid1 ++ suf)
        = (pre ++ [draw state.stream limit state.taken]) ++ mid1 ++ suf := by simp [draw]
    have e3 : pre.length + 1 = (pre ++ [draw state.stream limit state.taken]).length := by simp
    rw [e2, e3, ih _ _ _ _ h1]
    simp [List.range_succ_eq_map, Function.comp_def, Nat.add_assoc, Nat.add_comm 1]

theorem print_polynomial_loop_eq (k : Nat) :
    ∀ (pre mid suf out : List mpz_t), mid.length = k →
      print_polynomial_loop (pre ++ mid ++ suf) k pre.length out = .ok (out ++ mid) := by
  induction k with
  | zero =>
    intro pre mid suf out h
    have : mid = [] := List.length_eq_zero.mp h
    subst this
    simp [print_polynomial_loop]
  | succ k ih =>
    intro pre mid suf out h
    obtain ⟨a, mid1, rfl⟩ := List.exists_cons_of_length_eq_add_one h
    have h1 : mid1.length = k := by simpa using h
    have e1 : pre ++ a :: mid1 ++ suf = pre ++ a :: (mid1 ++ suf) := by simp
    have e2 : pre ++ a :: (mid1 ++ suf) = (pre ++ [a]) ++ mid1 ++ suf := by simp
    have e3 : pre.length + 1 = (pre ++ [a]).length := by simp
    rw [print_polynomial_loop, e1, load_mid]
    simp only []
    rw [e2, e3, ih _ _ _ _ h1]
    simp

theorem clear_polynomial_eq (k : Nat) :
    ∀ (pre mid suf : List mpz_t), mid.length = k →
      clear_polynomial (pre ++ mid ++ suf) k pre.length = .ok () := by
  induction k with
  | zero =>
    intro pre mid suf h
    simp [clear_polynomial]
  | succ k ih =>
    intro pre mid suf h
    obtain ⟨a, mid1, rfl⟩ := List.exists_cons_of_length_eq_add_one h
    have h1 : mid1.length = k := by simpa using h
    have e1 : pre ++ a :: mid1 ++ suf = pre ++ a :: (mid1 ++ suf) := by simp
    have e2 : pre ++ a :: (mid1 ++ suf) = (pre ++ [a]) ++ mid1 ++ suf := by simp
    have e3 : pre.length + 1 = (pre ++ [a]).length := by simp
    rw [clear_polynomial, e1, load_mid]
    simp only []
    rw [e2, e3, ih _ _ _ h1]

theorem print_shares_loop_eq (k : Nat) :
    ∀ (pre mid suf out : List SHARE_), mid.length = k →
      print_shares_loop (pre ++ mid ++ suf) k pre.length out = .ok (out ++ mid) := by
  induction k with
  | zero =>
    intro pre mid suf out h
    have : mid = [] := List.length_eq_zero.mp h
    subst this
    simp [print_shares_loop]
  | succ k ih =>
    intro pre mid suf out h
    obtain ⟨a, mid1, rfl⟩ := List.exists_cons_of_length_eq_add_one h
    have h1 : mid1.length = k := by simpa using h
    have e1 : pre ++ a :: mid1 ++ suf = pre ++ a :: (mid1 ++ suf) := by simp
    have e2 : pre ++ a :: (mid1 ++ suf) = (pre ++ [a]) ++ mid1 ++ suf := by simp
    have e3 : pre.length + 1 = (pre ++ [a]).length := by simp
    rw [print_shares_loop, e1, load_mid]
    simp only []
    rw [e2, e3, ih _ _ _ _ h1]
    simp

theorem free_shares_eq (k : Nat) :
    ∀ (pre mid suf : List SHARE_), mid.length = k →
      free_shares (pre ++ mid ++ suf) k pre.length = .ok () := by
  induction k with
  | zero =>
    intro pre mid suf h
    simp [free_shares]
  | succ k ih =>
    intro pre mid suf h
    obtain ⟨a, mid1, rfl⟩ := List.exists_cons_of_length_eq_add_one h
    have h1 : mid1.length = k := by simpa using h
    have e1 : pre ++ a :: mid1 ++ suf = pre ++ a :: (mid1 ++ suf) := by simp
    have e2 : pre ++ a :: (mid1 ++ suf) = (pre ++ [a]) ++ mid1 ++ suf := by simp
    have e3 : pre.length + 1 = (pre ++ [a]).length := by simp
    rw [free_shares, e1, load_mid]
    simp only []
    rw [e2, e3, ih _ _ _ h1]

theorem eval_polynomial_loop_eq (env : Env) (x : Nat) (k : Nat) :
    ∀ (pre mid suf : List mpz_t) (res : mpz_t), mid.length = k →
      eval_polynomial_loop env x (pre ++ mid ++ suf) k pre.length res =
        .ok (weighted_sum env x pre.length mid + res) := by
  induction k with
  | zero =>
    intro pre mid suf res h
    have : mid = [] := List.length_eq_zero.mp h
    subst this
    simp [eval_polynomial_loop, weighted_sum]
  | succ k ih =>
    intro pre mid suf res h
    obtain ⟨a, mid1, rfl⟩ := List.exists_cons_of_length_eq_add_one h
    have h1 : mid1.length = k := by simpa using h
    have e1 : pre ++ a :: mid1 ++ suf = pre ++ a :: (mid1 ++ suf) := by simp
    have e2 : pre ++ a :: (mid1 ++ suf) = (pre ++ [a]) ++ mid1 ++ suf := by simp
    have e3 : pre.length + 1 = (pre ++ [a]).length := by simp
    rw [eval_polynomial_loop, e1, load_mid]
    simp only []
    rw [e2, e3, ih _ _ _ _ h1]
    simp [weighted_sum, multiplier]
    ring

/-- On a buffer of exactly `nterms` coefficients `eval_polynomial` returns and
adds the weighted sum of all of them to `res`. -/
theorem eval_polynomial_eq (env : Env) (x : Nat) (poly : List mpz_t) (nterms : Int) (res : mpz_t)
    (h : poly.length = nterms.toNat) :
    eval_polynomial env x poly nterms res = .ok (weighted_sum env x 0 poly + res) := by
  have := eval_polynomial_loop_eq env x nterms.toNat [] poly [] res h
  simpa [eval_polynomial] using this

/-- The share `create_shares` stores at position `i` for the polynomial `poly`. -/
theorem create_shares_loop_eq (env : Env) (poly : List mpz_t) (nterms : Int)
    (hlen : poly.length = nterms.toNat) (k : Nat) :
    ∀ (pre mid suf : List SHARE_), mid.length = k →
      create_shares_loop env poly nterms k pre.length (pre ++ mid ++ suf) =
        .ok (pre ++ (List.range k).map (fun j => share_at env poly (pre.length + j)) ++ suf) := by
  induction k with
  | zero =>
    intro pre mid suf h
    have : mid = [] := List.length_eq_zero.mp h
    subst this
    simp [create_shares_loop]
  | succ k ih =>
    intro pre mid suf h
    obtain ⟨a, mid1, rfl⟩ := List.exists_cons_of_length_eq_add_one h
    have h1 : mid1.length = k := by simpa using h
    have e1 : pre ++ a :: mid1 ++ suf = pre ++ a :: (mid1 ++ suf) := by simp
    rw [create_shares_loop, e1, store_mid]
    simp only [eval_polynomial_eq env _ poly nterms 0 hlen, store_mid]
    have e2 : pre ++ (⟨((pre.length + 1 : Nat) : Int), weighted_sum env (pre.length + 1) 0 poly + 0⟩ : SHARE_)
          :: (mid1 ++ suf)
        = (pre ++ [share_at env poly pre.length]) ++ mid1 ++ suf := by simp [share_at]
    have e3 : pre.length + 1 = (pre ++ [share_at env poly pre.length]).length := by simp
    rw [e2, e3, ih _ _ _ h1]
    simp [List.range_succ_eq_map, Function.comp_def, Nat.add_assoc, Nat.add_comm 1]

theorem fill_polynomial_eq (state : gmp_randstate_t) (nterms : Int) (limit : Nat)
    (secret : mpz_t) (h : 1 ≤ nterms) :
    fill_polynomial (malloc (0 : mpz_t) nterms) state nterms limit secret =
      .ok (secret :: (List.range (nterms.toNat - 1)).map
            (fun j => draw state.stream limit (state.taken + j)),
          { state with taken := state.taken + (nterms.toNat - 1) }) := by
  obtain ⟨m, hm⟩ : ∃ m : Nat, nterms.toNat = m + 1 := ⟨nterms.toNat - 1, by omega⟩
  have hk : (nterms - 1).toNat = m := by omega
  have hb : malloc (0 : mpz_t) nterms = [] ++ (0 : mpz_t) :: List.replicate m 0 := by
    simp [malloc, hm, List.replicate_succ]
  have hs (v : mpz_t) (rest : List mpz_t) : store ((0 : mpz_t) :: rest) 0 v = .ok (v :: rest) := by
    simp [store]
  have hs2 (v : mpz_t) (rest : List mpz_t) : store (v :: rest) 0 secret = .ok (secret :: rest) := by
    simp [store]
  rw [fill_polynomial, hb]
  simp only [List.nil_append, hs, hs2, hk, hm, Nat.add_sub_cancel]
  have := fill_polynomial_loop_eq limit m [secret] (List.replicate m 0) [] state (by simp)
  simpa using this

theorem fill_polynomial_fault (state : gmp_randstate_t) (nterms : Int)
    (limit : Nat) (secret : mpz_t) (h : nterms ≤ 0) :
    fill_polynomial (malloc (0 : mpz_t) nterms) state nterms limit secret = .error .fault := by
  have : nterms.toNat = 0 := by omega
  simp [fill_polynomial, malloc, this, store]

theorem read_ulong_urandom_ok (env : Env) (ho : 0 ≤ env.open_result) (hr : 0 ≤ env.read_result) :
    read_ulong_urandom env = .ok (seed_of env) := by
  simp [read_ulong_urandom, seed_of, not_lt.mpr ho, not_lt.mpr hr]

theorem build_polynomial_eq (env : Env) (nterms : Int) (secret : mpz_t)
    (ho : 0 ≤ env.open_result) (hr : 0 ≤ env.read_result) (h : 1 ≤ nterms) :
    build_polynomial env (malloc (0 : mpz_t) nterms) nterms secret =
      .ok (coefficients env (seed_of env) nterms.toNat secret) := by
  simp [build_polynomial, read_ulong_urandom_ok env ho hr, fill_polynomial_eq _ nterms _ secret h,
    gmp_randseed_ui, coefficients]

theorem coefficients_length (env : Env) (seed : Nat) (nterms : Nat) (secret : mpz_t)
    (h : 1 ≤ nterms) : (coefficients env seed nterms secret).length = nterms := by
  simp [coefficients]; omega

/-- Closed form of a run of `create_shares` that passes the guard with at least
one term and a working `/dev/urandom`. -/
theorem create_shares_eq (env : Env) (nshares min : Int) (secret : mpz_t)
    (ho : 0 ≤ env.open_result) (hr : 0 ≤ env.read_result)
    (hmin : 2 ≤ min) (hle : min ≤ nshares) (hmax : nshares ≤ INT_MAX) :
    create_shares env nshares min secret = .ok (printed_of env nshares min secret) := by
  have hnt : 1 ≤ min - 1 := by omega
  have hlen : (coefficients env (seed_of env) (min - 1).toNat secret).length = (min - 1).toNat :=
    coefficients_length env _ _ secret (by omega)
  have hmod : (nshares % 2 ^ 32).toNat = nshares.toNat := by
    have : nshares % 2 ^ 32 = nshares := by
      apply Int.emod_eq_of_lt (by omega)
      simp only [INT_MAX] at hmax
      omega
    rw [this]
  have hp := print_polynomial_loop_eq (min - 1).toNat []
    (coefficients env (seed_of env) (min - 1).toNat secret) [] [] hlen
  have hc := clear_polynomial_eq (min - 1).toNat []
    (coefficients env (seed_of env) (min - 1).toNat secret) [] hlen
  have hs := create_shares_loop_eq env (coefficients env (seed_of env) (min - 1).toNat secret)
    (min - 1) hlen nshares.toNat [] (malloc (⟨0, 0⟩ : SHARE_) nshares) [] (by simp [malloc])
  have hps := print_shares_loop_eq nshares.toNat []
    ((List.range nshares.toNat).map
      (share_at env (coefficients env (seed_of env) (min - 1).toNat secret))) [] [] (by simp)
  have hf := free_shares_eq nshares.toNat []
    ((List.range nshares.toNat).map
      (share_at env (coefficients env (seed_of env) (min - 1).toNat secret))) [] (by simp)
  simp only [List.nil_append, List.append_nil, List.length_nil, Nat.zero_add] at hp hc hs hps hf
  simp only [create_shares, not_lt.mpr hle, if_false, build_polynomial_eq env (min - 1) secret ho hr hnt,
    print_polynomial, hp, hmod, hs, print_shares, hps, hc, hf, printed_of]

/-- With fewer than one term the first write of `fill_polynomial` leaves the buffer. -/
theorem create_shares_fault (env : Env) (nshares min : Int) (secret : mpz_t)
    (ho : 0 ≤ env.open_result) (hr : 0 ≤ env.read_result)
    (hmin : min ≤ 1) (hle : min ≤ nshares) :
    create_shares env nshares min secret = .error .fault := by
  simp [create_shares, not_lt.mpr hle, build_polynomial, read_ulong_urandom_ok env ho hr,
    fill_polynomial_fault _ (min - 1) _ secret (by omega)]

theorem create_shares_einval (env : Env) (nshares min : Int) (secret : mpz_t) (h : nshares < min) :
    create_shares env nshares min secret =
      .error (.exit EINVAL "The number of shares cant be less than min.") := by
  simp [create_shares, h]

theorem create_shares_urandom (env : Env) (nshares min : Int) (secret : mpz_t)
    (hle : min ≤ nshares) (h : env.open_result < 0 ∨ env.read_result < 0) :
    create_shares env nshares min secret =
      .error (.exit env.errno "Error interacting with/dev/urandom: ") := by
  have : read_ulong_urandom env = .error (.exit env.errno "Error interacting with/dev/urandom: ") := by
    unfold read_ulong_urandom error_handling_urandom
    rcases h with h | h
    · simp [h]
    · by_cases h1 : env.open_result < 0 <;> simp [h, h1]
  simp [create_shares, not_lt.mpr hle, build_polynomial, this]

/-- A run of `create_shares` that reaches its end passed the guard with at
least one term and a working `/dev/urandom`, and printed `printed_of`. -/
theorem create_shares_ok_inv (env : Env) (nshares min : Int) (secret : mpz_t) (out : Printed)
    (hmax : nshares ≤ INT_MAX) (h : create_shares env nshares min secret = .ok out) :
    2 ≤ min ∧ min ≤ nshares ∧ 0 ≤ env.open_result ∧ 0 ≤ env.read_result ∧
      out = printed_of env nshares min secret := by
  by_cases hlt : nshares < min
  · rw [create_shares_einval env nshares min secret hlt] at h
    cases h
  · have hle : min ≤ nshares := not_lt.mp hlt
    by_cases hu : env.open_result < 0 ∨ env.read_result < 0
    · rw [create_shares_urandom env nshares min secret hle hu] at h
      cases h
    · have ho : 0 ≤ env.open_result := by
        by_contra hc; exact hu (Or.inl (not_le.mp hc))
      have hr : 0 ≤ env.read_result := by
        by_contra hc; exact hu (Or.inr (not_le.mp hc))
      by_cases hmin : min ≤ 1
      · rw [create_shares_fault env nshares min secret ho hr hmin hle] at h
        cases h
      · have h2 : 2 ≤ min := by omega
        rw [create_shares_eq env nshares min secret ho hr h2 hle hmax] at h
        injection h with h
        exact ⟨h2, hle, ho, hr, h.symm⟩

theorem multiplier_lt (env : Env) (x i : Nat) : multiplier env x i < 2 ^ 64 := by
  unfold multiplier ulong_of_double
  split
  · split
    · assumption
    · exact Nat.mod_lt _ (by positivity)
  · exact Nat.mod_lt _ (by positivity)

theorem weighted_sum_bounds (env : Env) (x : Nat) (L : Nat) :
    ∀ (cs : List mpz_t) (i : Nat), (∀ c ∈ cs, 0 ≤ c ∧ c < 2 ^ L) →
      0 ≤ weighted_sum env x i cs ∧
        weighted_sum env x i cs + cs.length ≤ cs.length * (2 ^ 64 * 2 ^ L) := by
  intro cs
  induction cs with
  | nil => intro i _; simp [weighted_sum]
  | cons c cs ih =>
    intro i h
    have hc := h c (List.mem_cons_self c cs)
    have hcs := ih (i + 1) (fun d hd => h d (List.mem_cons_of_mem c hd))
    have hm : ((multiplier env x i : Nat) : Int) ≤ 2 ^ 64 - 1 := by
      have := multiplier_lt env x i
      have h2 : ((multiplier env x i : Nat) : Int) < ((2 ^ 64 : Nat) : Int) := by exact_mod_cast this
      push_cast at h2
      linarith
    have hm0 : (0 : Int) ≤ (multiplier env x i : Nat) := Int.natCast_nonneg _
    have hL : (1 : Int) ≤ 2 ^ L := one_le_pow₀ (by norm_num)
    have hp : c * (multiplier env x i : Int) ≤ (2 ^ L - 1) * (2 ^ 64 - 1) :=
      mul_le_mul (Int.le_sub_one_of_lt hc.2) hm hm0 (by linarith)
    have hq : ((2 : Int) ^ L - 1) * (2 ^ 64 - 1) + 1 ≤ 2 ^ 64 * 2 ^ L := by nlinarith
    simp only [weighted_sum, List.length_cons]
    constructor
    · have := mul_nonneg hc.1 hm0
      linarith [hcs.1]
    · push_cast
      nlinarith [hcs.2]

/-- The sum `eval_polynomial` adds is, term by term, coefficient `j` times the
multiplier of index `j`. -/
theorem weighted_sum_eq_sum (env : Env) (x : Nat) :
    ∀ (cs : List mpz_t) (i : Nat), weighted_sum env x i cs =
      ((List.range cs.length).map fun j => cs.getD j 0 * (multiplier env x (i + j) : Int)).sum := by
  intro cs
  induction cs with
  | nil => intro i; simp [weighted_sum]
  | cons c cs ih =>
    intro i
    simp only [weighted_sum, ih (i + 1), List.length_cons, List.range_succ_eq_map, List.map_cons,
      List.sum_cons, List.map_map, List.getD_cons_zero, Nat.add_zero]
    congr 2
    apply List.map_congr_left
    intro j _
    simp only [Function.comp_apply, List.getD_cons_succ]
    have : i + 1 + j = i + (j + 1) := by omega
    rw [this]

theorem coefficients_range (env : Env) (seed nterms : Nat) (secret : mpz_t)
    (h0 : 0 ≤ secret) (hS : secret < 2 ^ env.MPZ_LIMIT) :
    ∀ c ∈ coefficients env seed nterms secret, 0 ≤ c ∧ c < 2 ^ env.MPZ_LIMIT := by
  intro c hc
  simp only [coefficients, List.mem_cons, List.mem_map, List.mem_range] at hc
  rcases hc with rfl | ⟨j, _, rfl⟩
  · exact ⟨h0, hS⟩
  · simp only [draw]
    constructor
    · exact Int.natCast_nonneg _
    · have : env.gmp_default seed j % 2 ^ env.MPZ_LIMIT < 2 ^ env.MPZ_LIMIT :=
        Nat.mod_lt _ (by positivity)
      exact_mod_cast this

theorem eval_polynomial_loop_shift (env : Env) (x : Nat) (poly : List mpz_t) (k : Nat) :
    ∀ (i : Nat) (r : mpz_t),
      eval_polynomial_loop env x poly k i r =
        (eval_polynomial_loop env x poly k i 0).map fun v => v + r := by
  induction k with
  | zero => intro i r; simp [eval_polynomial_loop, Except.map]
  | succ k ih =>
    intro i r
    simp only [eval_polynomial_loop]
    cases hl : load poly i with
    | error e => simp [Except.map]
    | ok c =>
      simp only []
      rw [ih (i + 1) (c * _ + r), ih (i + 1) (c * _ + 0)]
      cases eval_polynomial_loop env x poly k (i + 1) 0 with
      | error e => simp [Except.map]
      | ok v => simp [Except.map]; ring

/-! ## Values of `double` -/

theorem bit_length_ge (k : Nat) : ∀ (fuel v : Nat), 2 ^ k ≤ v → k < fuel →
    k + 1 ≤ bit_length fuel v := by
  induction k with
  | zero =>
    intro fuel v hv hf
    obtain ⟨f, rfl⟩ : ∃ f, fuel = f + 1 := ⟨fuel - 1, by omega⟩
    have : v ≠ 0 := by simp at hv; omega
    simp [bit_length, this]
  | succ k ih =>
    intro fuel v hv hf
    obtain ⟨f, rfl⟩ : ∃ f, fuel = f + 1 := ⟨fuel - 1, by omega⟩
    have hv0 : v ≠ 0 := by
      have : 0 < 2 ^ (k + 1) := by positivity
      omega
    have h2 : 2 ^ k ≤ v / 2 := by
      rw [Nat.le_div_iff_mul_le (by norm_num)]
      rw [pow_succ] at hv
      exact hv
    have := ih f (v / 2) h2 (by omega)
    simp only [bit_length, hv0, if_false]
    omega

/-- A `double` at or above `2^53` is an even number. -/
theorem round_double_even (v : Nat) (h : 2 ^ 53 ≤ round_double v) : round_double v % 2 = 0 := by
  unfold round_double at h ⊢
  by_cases hv : v < 2 ^ 53
  · rw [if_pos hv] at h
    omega
  · rw [if_neg hv]
    have hb : 54 ≤ bit_length v v :=
      bit_length_ge 53 v v (not_lt.mp hv) (lt_of_lt_of_le (by norm_num) (not_lt.mp hv))
    obtain ⟨e, he⟩ : ∃ e, bit_length v v - 53 = e + 1 := ⟨bit_length v v - 54, by omega⟩
    simp only [he, pow_succ]
    rw [← Nat.mul_assoc, Nat.mul_mod_left]

theorem bit_length_le (k : Nat) : ∀ (fuel v : Nat), v < 2 ^ k → bit_length fuel v ≤ k := by
  induction k with
  | zero =>
    intro fuel v hv
    have : v = 0 := by simpa using hv
    subst this
    cases fuel <;> simp [bit_length]
  | succ k ih =>
    intro fuel v hv
    cases fuel with
    | zero => simp [bit_length]
    | succ f =>
      simp only [bit_length]
      split
      · omega
      · have : v / 2 < 2 ^ k := by
          rw [Nat.div_lt_iff_lt_mul (by norm_num)]
          rw [pow_succ] at hv
          exact hv
        have := ih f (v / 2) this
        omega

/-- A power below `2^53` reaches `mpz_mul_ui` unchanged. -/
theorem multiplier_exact (env : Env) (x i : Nat) (h : x ^ i < 2 ^ 53) :
    multiplier env x i = x ^ i := by
  have hr : round_double (x ^ i) = x ^ i := by
    unfold round_double
    rw [if_pos h]
  have hb : bit_length (x ^ i) (x ^ i) ≤ 1024 :=
    le_trans (bit_length_le 53 _ _ h) (by norm_num)
  have h64 : x ^ i < 2 ^ 64 := lt_trans h (by norm_num)
  simp only [multiplier, pow, nearest_pow, hr, hb, if_true, ulong_of_double, h64]

theorem pow_lt_of_le (x i k : Nat) (hik : i ≤ k) (h : x ^ k < 2 ^ 53) : x ^ i < 2 ^ 53 := by
  rcases Nat.eq_zero_or_pos x with rfl | hx
  · rcases Nat.eq_zero_or_pos i with rfl | hi
    · norm_num
    · rw [zero_pow (by omega)]; norm_num
  · exact lt_of_le_of_lt (Nat.pow_le_pow_right hx hik) h

/-! ## `strtol` on decimal numerals -/

theorem digit_char_facts (d : Nat) (h : d < 10) :
    (digit_char d).isDigit = true ∧ (digit_char d).toNat - 48 = d ∧
      isspace (digit_char d) = false ∧ digit_char d ≠ '-' ∧ digit_char d ≠ '+' := by
  interval_cases d <;> decide

theorem digits_value_append (ds : List Char) (c : Char) :
    digits_value (ds ++ [c]) = 10 * digits_value ds + (c.toNat - 48) := by
  simp [digits_value, List.foldl_append]

theorem digits_value_digits (l : List Nat) (h : ∀ d ∈ l, d < 10) :
    digits_value (l.map digit_char).reverse = Nat.ofDigits 10 l := by
  induction l with
  | nil => simp [digits_value]
  | cons a l ih =>
    have ha := (digit_char_facts a (h a (List.mem_cons_self a l))).2.1
    have hl := ih (fun d hd => h d (List.mem_cons_of_mem a hd))
    rw [List.map_cons, List.reverse_cons, digits_value_append, hl, ha, Nat.ofDigits_cons]
    ring

theorem decimal_eq (n : Nat) :
    ∃ c cs, decimal n = c :: cs ∧ (∀ a ∈ c :: cs, Char.isDigit a = true) ∧
      isspace c = false ∧ c ≠ '-' ∧ c ≠ '+' ∧ digits_value (c :: cs) = n := by
  by_cases h0 : n = 0
  · subst h0
    exact ⟨'0', [], by simp [decimal], by decide, by decide, by decide, by decide, by decide⟩
  · have hlt : ∀ d ∈ Nat.digits 10 n, d < 10 := fun d hd => Nat.digits_lt_base (by norm_num) hd
    have hne : Nat.digits 10 n ≠ [] := by
      simpa [Nat.digits_eq_nil_iff_eq_zero] using h0
    have hdec : decimal n = ((Nat.digits 10 n).map digit_char).reverse := by simp [decimal, h0]
    have hall : ∀ a ∈ decimal n, Char.isDigit a = true ∧ isspace a = false ∧ a ≠ '-' ∧ a ≠ '+' := by
      intro a ha
      rw [hdec] at ha
      simp only [List.mem_reverse, List.mem_map] at ha
      obtain ⟨d, hd, rfl⟩ := ha
      have := digit_char_facts d (hlt d hd)
      exact ⟨this.1, this.2.2.1, this.2.2.2.1, this.2.2.2.2⟩
    have hval : digits_value (decimal n) = n := by
      rw [hdec, digits_value_digits _ hlt, Nat.ofDigits_digits]
    cases hd : decimal n with
    | nil =>
      rw [hdec] at hd
      simp at hd
      exact absurd hd hne
    | cons c cs =>
      rw [hd] at hall hval
      have hc := hall c (List.mem_cons_self c cs)
      exact ⟨c, cs, rfl, fun a ha => (hall a ha).1, hc.2.1, hc.2.2.1, hc.2.2.2, hval⟩

/-- On the decimal numeral of `n`, `strtol` reads the whole string; it returns
`n` when `n` fits a `long` and sets `ERANGE` otherwise. -/
theorem strtol_decimal (n : Nat) :
    strtol (decimal n) =
      if LONG_MAX < (n : Int) then ⟨LONG_MAX, [], ERANGE⟩ else ⟨(n : Int), [], 0⟩ := by
  obtain ⟨c, cs, hd, hdig, hsp, hm, hp, hv⟩ := decimal_eq n
  have h1 : (c :: cs).dropWhile isspace = c :: cs := by simp [List.dropWhile, hsp]
  have h2 : (c :: cs).takeWhile Char.isDigit = c :: cs := by
    rw [List.takeWhile_eq_self_iff]
    exact hdig
  have h3 : (c :: cs).dropWhile Char.isDigit = [] := by
    rw [List.dropWhile_eq_nil_iff]
    exact hdig
  have hnn : ¬ ((n : Int) < LONG_MIN) := by
    simp only [LONG_MIN]; omega
  rw [hd]
  unfold strtol
  simp only [h1, List.head?_cons, Option.some.injEq, hm, hp, or_self, if_false, h2, h3, hv]
  simp [hnn]

theorem str_to_int_decimal (n : Nat) (h : (n : Int) ≤ INT_MAX) :
    str_to_int (decimal n) = .ok (n : Int) := by
  have h1 : ¬ LONG_MAX < (n : Int) := by
    simp only [INT_MAX] at h; simp only [LONG_MAX]; omega
  simp [str_to_int, strtol_decimal, h1, not_lt.mpr h]

theorem str_to_int_decimal_large (n : Nat) (h : INT_MAX < (n : Int)) :
    ∃ e, str_to_int (decimal n) = .error e := by
  by_cases h1 : LONG_MAX < (n : Int)
  · exact ⟨_, by simp [str_to_int, strtol_decimal, h1, ERANGE, error_message]; rfl⟩
  · exact ⟨_, by simp [str_to_int, strtol_decimal, h1, h, error_message]; rfl⟩

theorem wrap_int_of_range (v : Int) (h0 : 0 ≤ v) (h : v ≤ INT_MAX) : wrap_int v = v := by
  simp only [INT_MAX] at h
  unfold wrap_int
  omega

/-! ## The claims about `shamir.c` -/

set_option maxRecDepth 100000 in
theorem shares_of_sixteen :
    (printed_of (env_with 64 fun _ => 1) 16 16 1234).shares =
      [⟨1, 1248⟩, ⟨2, 34000⟩, ⟨3, 7175686⟩, ⟨4, 357915174⟩, ⟨5, 7629395764⟩,
        ⟨6, 94036998148⟩, ⟨7, 791260252890⟩, ⟨8, 5026338871066⟩, ⟨9, 25736391513064⟩,
        ⟨10, 111111111112344⟩, ⟨11, 417724816942798⟩, ⟨12, 1400638324963630⟩,
        ⟨13, 4265491084508796⟩, ⟨14, 11966776581371404⟩, ⟨15, 31278135027205473⟩,
        ⟨16, 76861433640457698⟩] := by
  decide

set_option maxRecDepth 100000 in
theorem reconstruct_of_sixteen :
    reconstruct (printed_of (env_with 64 fun _ => 1) 16 16 1234).shares = 1218 := by
  rw [shares_of_sixteen]
  simp only [reconstruct, List.map, List.filter, List.prod_cons, List.prod_nil, List.sum_cons,
    List.sum_nil]
  norm_num

/-- C1 (round trip), at the failing input `nshares = 16`, `min = 16`,
`secret = 1234` with every drawn coefficient equal to 1: the run prints 16
shares, and Lagrange interpolation at 0 over all 16 of them gives 1218, not the
secret. The term `15^14` passes through `pow`, and no `double` has that value. -/
theorem C1_round_trip_fails_at_sixteen :
    (∃ out, create_shares (env_with 64 fun _ => 1) 16 16 1234 = .ok out ∧
      out.shares.length = 16 ∧ reconstruct out.shares = 1218 ∧ reconstruct out.shares ≠ 1234) ∧
      ∀ v, round_double v ≠ 15 ^ 14 := by
  refine ⟨⟨_, create_shares_eq _ 16 16 1234 (by decide) (by decide) (by decide) (by decide)
    (by decide), ?_, ?_, ?_⟩, ?_⟩
  · simp [printed_of]
  · exact reconstruct_of_sixteen
  · rw [reconstruct_of_sixteen]; norm_num
  · intro v hv
    have := round_double_even v (by rw [hv]; norm_num)
    rw [hv] at this
    revert this
    decide

/-- The spec's own scenario: secret 1234, 5 shares, threshold 3, shares with
x = 2, 4, 5 give back 1234. -/
theorem round_trip_scenario :
    ∃ out, create_shares (env_with 64 fun k => k + 7) 5 3 1234 = .ok out ∧
      reconstruct ((out.shares.get? 1).toList ++ (out.shares.get? 3).toList ++
        (out.shares.get? 4).toList) = 1234 := by
  refine ⟨_, create_shares_eq _ 5 3 1234 (by decide) (by decide) (by decide) (by decide)
    (by decide), ?_⟩
  have h : (printed_of (env_with 64 fun k => k + 7) 5 3 1234).shares =
      [⟨1, 1241⟩, ⟨2, 1248⟩, ⟨3, 1255⟩, ⟨4, 1262⟩, ⟨5, 1269⟩] := by decide
  rw [h]
  simp only [reconstruct, List.get?, Option.toList, List.append, List.map, List.filter,
    List.prod_cons, List.prod_nil, List.sum_cons, List.sum_nil, List.cons_append, List.nil_append]
  norm_num

/-- With threshold 2 the polynomial is the secret alone: share `i` is `(i + 1, secret)`. -/
theorem shares_of_threshold_two (env : Env) (nshares : Int) (secret : mpz_t) :
    (printed_of env nshares 2 secret).shares =
      (List.range nshares.toNat).map fun i => ⟨((i + 1 : Nat) : Int), secret⟩ := by
  have hm (x : Nat) : multiplier env x 0 = 1 := by
    simp only [multiplier, pow, nearest_pow, Nat.pow_zero]
    rfl
  simp [printed_of, coefficients, share_at, weighted_sum, hm]

/-- C2 (threshold secrecy), at the smallest case `min = 2`, `nshares = 3`: with
secret 5 the single share at position 0 is `(1, 5)`, and no run with secret 7,
whatever the environment and the draws, produces a share with that y-value at
position 0. One share, which is `min - 1` shares, gives the secret away. -/
theorem C2_one_share_reveals_secret :
    (∃ out, create_shares (env_with 64 fun k => k) 3 2 5 = .ok out ∧
        (out.shares.get? 0).map SHARE_.y = some 5) ∧
      ¬ ∃ (env : Env) (out : Printed), create_shares env 3 2 7 = .ok out ∧
        (out.shares.get? 0).map SHARE_.y = some 5 := by
  constructor
  · refine ⟨_, create_shares_eq _ 3 2 5 (by decide) (by decide) (by decide) (by decide)
      (by decide), ?_⟩
    rw [shares_of_threshold_two]
    decide
  · rintro ⟨env, out, h, hy⟩
    obtain ⟨_, _, _, _, rfl⟩ := create_shares_ok_inv env 3 2 7 out (by decide) h
    rw [shares_of_threshold_two] at hy
    revert hy
    decide

/-- C3 (polynomial size), at `nshares = 5`, `min = 3`, `secret = 1234`: the
polynomial built and printed has 2 coefficients, the secret and one draw, not 3. -/
theorem C3_polynomial_has_two_terms :
    ∃ out, create_shares (env_with 64 fun k => k + 7) 5 3 1234 = .ok out ∧
      out.polynomial = [1234, 7] ∧ out.polynomial.length = 2 := by
  refine ⟨_, create_shares_eq _ 5 3 1234 (by decide) (by decide) (by decide) (by decide)
    (by decide), ?_, ?_⟩ <;> decide

/-- The polynomial of every run that reaches its end has `min - 1` coefficients. -/
theorem polynomial_length (env : Env) (nshares min : Int) (secret : mpz_t) (out : Printed)
    (hmax : nshares ≤ INT_MAX) (h : create_shares env nshares min secret = .ok out) :
    (out.polynomial.length : Int) = min - 1 := by
  obtain ⟨h2, _, _, _, rfl⟩ := create_shares_ok_inv env nshares min secret out hmax h
  simp only [printed_of, coefficients_length env _ _ secret (show 1 ≤ (min - 1).toNat by omega)]
  omega

/-- The polynomial of the run with 5 shares and threshold 3 has 2 coefficients. -/
theorem polynomial_length_witness :
    ((printed_of (env_with 64 fun k => k + 7) 5 3 1234).polynomial.length : Int) = 3 - 1 :=
  polynomial_length (env_with 64 fun k => k + 7) 5 3 1234 _ (by decide)
    (create_shares_eq _ 5 3 1234 (by decide) (by decide) (by decide) (by decide) (by decide))

/-- C4 (threshold validation): with `nshares = 5` the thresholds 1 and 0 pass
the guard and the run ends in a write outside the polynomial buffer, after
`/dev/urandom` was read; only the threshold 6 ends with the invalid-argument exit. -/
theorem C4_low_threshold_passes_guard :
    create_shares (env_with 64 fun k => k + 7) 5 1 1234 = .error .fault ∧
      create_shares (env_with 64 fun k => k + 7) 5 0 1234 = .error .fault ∧
      create_shares (env_with 64 fun k => k + 7) 5 6 1234 =
        .error (.exit EINVAL "The number of shares cant be less than min.") :=
  ⟨create_shares_fault _ 5 1 1234 (by decide) (by decide) (by decide) (by decide),
    create_shares_fault _ 5 0 1234 (by decide) (by decide) (by decide) (by decide),
    create_shares_einval _ 5 6 1234 (by decide)⟩

/-- For a share count that fits an `int`, the invalid-argument exit is taken
exactly when `nshares < min`. -/
theorem create_shares_einval_iff (env : Env) (nshares min : Int) (secret : mpz_t)
    (hmax : nshares ≤ INT_MAX) :
    create_shares env nshares min secret =
        .error (.exit EINVAL "The number of shares cant be less than min.") ↔ nshares < min := by
  constructor
  · intro h
    by_contra hlt
    have hle : min ≤ nshares := not_lt.mp hlt
    by_cases hu : env.open_result < 0 ∨ env.read_result < 0
    · rw [create_shares_urandom env nshares min secret hle hu] at h
      injection h with h
      injection h with _ hs
      revert hs
      decide
    · have ho : 0 ≤ env.open_result := by
        by_contra hc; exact hu (Or.inl (not_le.mp hc))
      have hr : 0 ≤ env.read_result := by
        by_contra hc; exact hu (Or.inr (not_le.mp hc))
      by_cases hmin : min ≤ 1
      · rw [create_shares_fault env nshares min secret ho hr hmin hle] at h
        cases h
      · rw [create_shares_eq env nshares min secret ho hr (by omega) hle hmax] at h
        cases h
  · exact create_shares_einval env nshares min secret

/-- With 5 shares the threshold 6 takes the invalid-argument exit. -/
theorem create_shares_einval_iff_witness :
    create_shares (env_with 64 fun k => k + 7) 5 6 1234 =
        .error (.exit EINVAL "The number of shares cant be less than min.") ↔ (5 : Int) < 6 :=
  create_shares_einval_iff (env_with 64 fun k => k + 7) 5 6 1234 (by decide)

/-- C5 (share x-coordinates): a run with `2 <= min <= nshares` and a working
`/dev/urandom` reaches its end and prints exactly `nshares` shares; the share
at position `i` has `x = i + 1`, so the x-coordinates are `1, ..., nshares` in
that order, pairwise distinct and never 0. -/
theorem C5_share_x_coordinates (env : Env) (nshares min : Int) (secret : mpz_t)
    (ho : 0 ≤ env.open_result) (hr : 0 ≤ env.read_result)
    (hmin : 2 ≤ min) (hle : min ≤ nshares) (hmax : nshares ≤ INT_MAX) :
    ∃ out, create_shares env nshares min secret = .ok out ∧
      (out.shares.length : Int) = nshares ∧
      (∀ i : Nat, (i : Int) < nshares →
        (out.shares.get? i).map SHARE_.x = some ((i : Int) + 1)) ∧
      out.shares.map SHARE_.x = (List.range nshares.toNat).map (fun i : Nat => (i : Int) + 1) ∧
      (out.shares.map SHARE_.x).Nodup ∧
      ∀ s ∈ out.shares, s.x ≠ 0 := by
  have hn0 : 0 ≤ nshares := by omega
  have hcast : ((nshares.toNat : Nat) : Int) = nshares := Int.toNat_of_nonneg hn0
  refine ⟨_, create_shares_eq env nshares min secret ho hr hmin hle hmax, ?_, ?_, ?_, ?_, ?_⟩
  · simp only [printed_of, List.length_map, List.length_range]
    exact hcast
  · intro i hi
    have hi2 : i < nshares.toNat := by omega
    simp [printed_of, share_at, List.getElem?_range hi2, hi2]
  · simp only [printed_of, List.map_map]
    apply List.map_congr_left
    intro i _
    simp [share_at]
  · simp only [printed_of, List.map_map]
    refine (List.nodup_range _).map ?_
    intro a b hab
    simpa [share_at] using hab
  · intro s hs
    simp only [printed_of, List.mem_map, List.mem_range] at hs
    obtain ⟨i, _, rfl⟩ := hs
    show ((i + 1 : Nat) : Int) ≠ 0
    omega

/-- Witness of C5: 5 shares with threshold 3. -/
theorem C5_share_x_coordinates_witness :
    ∃ out, create_shares (env_with 64 fun k => k + 7) 5 3 1234 = .ok out ∧
      (out.shares.length : Int) = 5 ∧
      (∀ i : Nat, (i : Int) < 5 → (out.shares.get? i).map SHARE_.x = some ((i : Int) + 1)) ∧
      out.shares.map SHARE_.x = (List.range (5 : Int).toNat).map (fun i : Nat => (i : Int) + 1) ∧
      (out.shares.map SHARE_.x).Nodup ∧
      ∀ s ∈ out.shares, s.x ≠ 0 :=
  C5_share_x_coordinates (env_with 64 fun k => k + 7) 5 3 1234 (by decide) (by decide)
    (by decide) (by decide) (by decide)

/-- C6 (exact evaluation), at `x = 2^27 + 1` and the polynomial `[0, 0, 1]`:
the exact value is `x^2 = 18014398777917441`, and `eval_polynomial` started
with `res = 0` leaves `18014398777917440`, the nearest `double` to `x^2`;
no `double` has the value `x^2`. -/
theorem C6_eval_polynomial_rounds :
    eval_polynomial (env_with 64 fun k => k) 134217729 [0, 0, 1] 3 0 = .ok 18014398777917440 ∧
      polynomial_value [0, 0, 1] 134217729 = 18014398777917441 ∧
      ∀ v, round_double v ≠ 18014398777917441 := by
  refine ⟨?_, ?_, ?_⟩
  · rfl
  · decide
  · intro v hv
    have := round_double_even v (by rw [hv]; norm_num)
    rw [hv] at this
    revert this
    decide

theorem multiplier_one (env : Env) (i : Nat) : multiplier env 1 i = 1 := by
  simp only [multiplier, pow, nearest_pow, one_pow]
  rfl

/-- Whatever `MPZ_LIMIT` is, as long as it is positive: with the largest
secret of the range and a draw of 1, the first share of a 3-of-3 run is
`2^MPZ_LIMIT`, outside the range. -/
theorem share_leaves_range_for_every_limit (L : Nat) (hL : 1 ≤ L) :
    ∃ out, create_shares (env_with L fun _ => 1) 3 3 (2 ^ L - 1) = .ok out ∧
      out.shares.get? 0 = some ⟨1, 2 ^ L⟩ := by
  refine ⟨_, create_shares_eq _ 3 3 _ (by simp [env_with]) (by simp [env_with]) (by decide)
    (by decide) (by decide), ?_⟩
  have h1 : (1 : Nat) % 2 ^ L = 1 := Nat.mod_eq_of_lt (Nat.one_lt_two_pow (by omega))
  have hc : coefficients (env_with L fun _ => 1) (seed_of (env_with L fun _ => 1))
      ((3 : Int) - 1).toNat (2 ^ L - 1) = [2 ^ L - 1, 1] := by
    have : ((3 : Int) - 1).toNat = 2 := by decide
    simp [coefficients, this, draw, env_with, h1, List.range_succ]
  have hr : List.range (3 : Int).toNat = [0, 1, 2] := by decide
  rw [printed_of, hc, hr]
  simp [share_at, weighted_sum, multiplier_one]

/-- C7 (range invariant) fails: with `MPZ_LIMIT = 64`, secret `2^64 - 1` and
a draw of 1, the first share of a 3-of-3 run is `(1, 2^64)`. -/
theorem C7_share_leaves_range :
    ∃ out, create_shares (env_with 64 fun _ => 1) 3 3 (2 ^ 64 - 1) = .ok out ∧
      (0 : Int) ≤ 2 ^ 64 - 1 ∧ (2 ^ 64 - 1 : Int) < 2 ^ (env_with 64 fun _ => 1).MPZ_LIMIT ∧
      ∃ s ∈ out.shares, ¬ s.y < 2 ^ (env_with 64 fun _ => 1).MPZ_LIMIT := by
  refine ⟨_, create_shares_eq _ 3 3 _ (by decide) (by decide) (by decide) (by decide)
    (by decide), by decide, by decide, ⟨1, 2 ^ 64⟩, ?_, by decide⟩
  decide

/-- C7 as amended: for a secret in `[0, 2^MPZ_LIMIT)` and a run with
`2 <= min <= nshares`, the share at position `i` has as `y` the sum over `j` of
coefficient `j` times the multiplier of index `j`, the `unsigned long` made
from `pow(i + 1, j)`; every multiplier is below `2^64` and equals `x^j` where
`x^j < 2^53`, and every coefficient lies in `[0, 2^MPZ_LIMIT)`. The sum is not
reduced: `0 <= y < (min - 1) * 2^64 * 2^MPZ_LIMIT`. -/
theorem C7_share_bound (env : Env) (nshares min : Int) (secret : mpz_t)
    (ho : 0 ≤ env.open_result) (hr : 0 ≤ env.read_result)
    (hmin : 2 ≤ min) (hle : min ≤ nshares) (hmax : nshares ≤ INT_MAX)
    (h0 : 0 ≤ secret) (hS : secret < 2 ^ env.MPZ_LIMIT) :
    ∃ out, create_shares env nshares min secret = .ok out ∧
      (∀ i : Nat, (i : Int) < nshares → ∃ s, out.shares.get? i = some s ∧
        s.y = ((List.range out.polynomial.length).map fun j =>
          out.polynomial.getD j 0 * (multiplier env (i + 1) j : Int)).sum) ∧
      (∀ x j : Nat, multiplier env x j < 2 ^ 64) ∧
      (∀ x j : Nat, x ^ j < 2 ^ 53 → multiplier env x j = x ^ j) ∧
      (∀ c ∈ out.polynomial, 0 ≤ c ∧ c < 2 ^ env.MPZ_LIMIT) ∧
      ∀ s ∈ out.shares, 0 ≤ s.y ∧ s.y < (min - 1) * 2 ^ 64 * 2 ^ env.MPZ_LIMIT := by
  refine ⟨_, create_shares_eq env nshares min secret ho hr hmin hle hmax, ?_,
    multiplier_lt env, multiplier_exact env,
    coefficients_range env (seed_of env) (min - 1).toNat secret h0 hS, ?_⟩
  · intro i hi
    have hi2 : i < nshares.toNat := by omega
    refine ⟨share_at env (coefficients env (seed_of env) (min - 1).toNat secret) i, ?_, ?_⟩
    · simp [printed_of, List.getElem?_range hi2, hi2]
    · have h := weighted_sum_eq_sum env (i + 1)
        (coefficients env (seed_of env) (min - 1).toNat secret) 0
      simp only [Nat.zero_add] at h
      simp only [share_at, printed_of, h]
  · intro s hs
    simp only [printed_of, List.mem_map, List.mem_range] at hs
    obtain ⟨i, _, rfl⟩ := hs
    have hb := weighted_sum_bounds env (i + 1) env.MPZ_LIMIT _ 0
      (coefficients_range env (seed_of env) (min - 1).toNat secret h0 hS)
    rw [coefficients_length env _ _ secret (show 1 ≤ (min - 1).toNat by omega)] at hb
    have hc : (((min - 1).toNat : Nat) : Int) = min - 1 := by omega
    rw [hc] at hb
    simp only [share_at]
    refine ⟨hb.1, ?_⟩
    have : (min - 1) * (2 ^ 64 * 2 ^ env.MPZ_LIMIT) = (min - 1) * 2 ^ 64 * 2 ^ env.MPZ_LIMIT := by
      ring
    rw [← this]
    have h1 : (0 : Int) < min - 1 := by omega
    linarith [hb.2]

/-- Witness of the amended C7: a 3-of-5 run with an 8-bit limit. -/
theorem C7_share_bound_witness :
    ∃ out, create_shares (env_with 8 fun k => 200 + k) 5 3 255 = .ok out ∧
      (∀ i : Nat, (i : Int) < 5 → ∃ s, out.shares.get? i = some s ∧
        s.y = ((List.range out.polynomial.length).map fun j =>
          out.polynomial.getD j 0 *
            (multiplier (env_with 8 fun k => 200 + k) (i + 1) j : Int)).sum) ∧
      (∀ x j : Nat, multiplier (env_with 8 fun k => 200 + k) x j < 2 ^ 64) ∧
      (∀ x j : Nat, x ^ j < 2 ^ 53 → multiplier (env_with 8 fun k => 200 + k) x j = x ^ j) ∧
      (∀ c ∈ out.polynomial, 0 ≤ c ∧ c < 2 ^ (env_with 8 fun k => 200 + k).MPZ_LIMIT) ∧
      ∀ s ∈ out.shares, 0 ≤ s.y ∧
        s.y < (3 - 1) * 2 ^ 64 * 2 ^ (env_with 8 fun k => 200 + k).MPZ_LIMIT :=
  C7_share_bound (env_with 8 fun k => 200 + k) 5 3 255 (by decide) (by decide) (by decide)
    (by decide) (by decide) (by decide) (by decide)

/-- C8 (deterministic evaluation), at `x = 2`, the polynomial `[1]` and the
initial contents 0 and 5 of `res`: the value of the polynomial is 1; the run
started with `res = 0` leaves 1 and the run started with `res = 5` leaves 6,
so the value left depends on what `res` held before the call. -/
theorem C8_initial_res_changes_result :
    eval_polynomial (env_with 64 fun k => k) 2 [1] 1 0 = .ok 1 ∧
      eval_polynomial (env_with 64 fun k => k) 2 [1] 1 5 = .ok 6 ∧
      eval_polynomial (env_with 64 fun k => k) 2 [1] 1 0 ≠
        eval_polynomial (env_with 64 fun k => k) 2 [1] 1 5 := by
  have h0 : eval_polynomial (env_with 64 fun k => k) 2 [1] 1 0 = .ok 1 := by
    rfl
  have h5 : eval_polynomial (env_with 64 fun k => k) 2 [1] 1 5 = .ok 6 := by
    rfl
  refine ⟨h0, h5, ?_⟩
  rw [h0, h5]
  intro h
  injection h with h
  revert h
  decide

/-- The loop of `eval_polynomial` never resets `res`: the value left is the
value left by a run started with `res = 0` plus the initial content. -/
theorem eval_polynomial_adds_to_res (env : Env) (x : Nat) (poly : List mpz_t) (nterms : Int)
    (r : mpz_t) :
    eval_polynomial env x poly nterms r =
      (eval_polynomial env x poly nterms 0).map fun v => v + r :=
  eval_polynomial_loop_shift env x poly nterms.toNat 0 r

/-! ## The claim about `src/main.c` -/

/-- C9 (command-line threshold validation) fails at `n = 2`, `t = 2`: the
pair satisfies `2 <= t <= n` and the run stops with "Too few shares!". -/
theorem C9_two_of_two_rejected :
    validate_cipher_option (fun _ => true) 6
        ["shamir".toList, ['c'], ['k'], ['2'], ['2'], "plain.txt".toList] =
      .error (.exit 1 "Too few shares!") := by
  rfl

/-- C9 as amended: with 6 arguments, file names shorter than
`MAX_LEN_FILENAME` and a readable input file, the share count `n` and the
threshold `t`, given as decimal numerals, are accepted exactly when
`3 <= n <= INT_MAX` and `2 <= t <= n`. -/
theorem C9_validate_cipher_option_accepts (fopen_ok : List Char → Bool)
    (a0 a1 a2 a5 : List Char) (n t : Nat)
    (h1 : a1.length < MAX_LEN_FILENAME) (h5 : a5.length < MAX_LEN_FILENAME)
    (hf : fopen_ok a5 = true) :
    validate_cipher_option fopen_ok 6 [a0, a1, a2, decimal n, decimal t, a5] = .ok () ↔
      (3 ≤ n ∧ (n : Int) ≤ INT_MAX ∧ 2 ≤ t ∧ t ≤ n) := by
  have hl (i : Nat) (v : List Char)
      (h : [a0, a1, a2, decimal n, decimal t, a5].get? i = some v) :
      load [a0, a1, a2, decimal n, decimal t, a5] i = .ok v := by
    simp only [load, h]
  unfold validate_cipher_option
  rw [hl 1 a1 rfl, hl 5 a5 rfl, hl 3 (decimal n) rfl, hl 4 (decimal t) rfl]
  simp only [ne_eq, not_true_eq_false, if_false, h1, h5, and_self]
  by_cases hn : (n : Int) ≤ INT_MAX
  · rw [str_to_int_decimal n hn]
    simp only [wrap_int_of_range (n : Int) (Int.natCast_nonneg n) hn]
    by_cases hn3 : (n : Int) ≤ 2
    · simp only [hn3, if_true, error_message]
      constructor
      · intro h; cases h
      · rintro ⟨h3, _⟩; omega
    · simp only [hn3, if_false]
      by_cases ht : (t : Int) ≤ INT_MAX
      · rw [str_to_int_decimal t ht]
        simp only [wrap_int_of_range (t : Int) (Int.natCast_nonneg t) ht]
        by_cases hc : (1 : Int) < t ∧ (t : Int) ≤ n
        · simp only [hc, and_self, not_true_eq_false, if_false, validate_file, hf, if_true]
          constructor
          · intro _; exact ⟨by omega, hn, by omega, by omega⟩
          · intro _; trivial
        · simp only [hc, not_false_eq_true, if_true, error_message]
          constructor
          · intro h; cases h
          · rintro ⟨_, _, h2, h3⟩
            exact absurd ⟨by omega, by omega⟩ hc
      · obtain ⟨e, he⟩ := str_to_int_decimal_large t (not_le.mp ht)
        rw [he]
        constructor
        · intro h; cases h
        · rintro ⟨_, _, _, h3⟩; omega
  · obtain ⟨e, he⟩ := str_to_int_decimal_large n (not_le.mp hn)
    rw [he]
    constructor
    · intro h; cases h
    · rintro ⟨_, h2, _⟩; exact absurd h2 hn

/-- Witness of the amended C9: 5 shares with threshold 3 are accepted. -/
theorem C9_validate_cipher_option_accepts_witness :
    validate_cipher_option (fun _ => true) 6
        ["shamir".toList, ['c'], ['k'], decimal 5, decimal 3, "plain.txt".toList] = .ok () ↔
      (3 ≤ 5 ∧ ((5 : Nat) : Int) ≤ INT_MAX ∧ 2 ≤ 3 ∧ 3 ≤ 5) :=
  C9_validate_cipher_option_accepts (fun _ => true) "shamir".toList ['c'] ['k']
    "plain.txt".toList 5 3 (by decide) (by decide) rfl

/-! ## `read_ulong_urandom` -/

/-- The run of `read_ulong_urandom` ends with an exit exactly when `open` or
`read` returns a negative value. -/
theorem read_ulong_urandom_exit_iff (env : Env) :
    (∃ e, read_ulong_urandom env = .error e) ↔ (env.open_result < 0 ∨ env.read_result < 0) := by
  constructor
  · rintro ⟨e, he⟩
    by_contra hc
    push_neg at hc
    rw [read_ulong_urandom_ok env hc.1 hc.2] at he
    cases he
  · intro h
    unfold read_ulong_urandom error_handling_urandom
    rcases h with h | h
    · exact ⟨_, by simp [h]; rfl⟩
    · by_cases h1 : env.open_result < 0
      · exact ⟨_, by simp [h1]; rfl⟩
      · exact ⟨_, by simp [h, h1]; rfl⟩

/-- C10 (entropy failure), at a read that delivers 0 bytes: `read_ulong_urandom`
returns, and the seed it returns is made of the bytes that were in `rd` before
the call; a failed `open` and a failed `read` do end the run. -/
theorem C10_short_read_returns :
    read_ulong_urandom
        { env_with 64 fun k => k with
          read_result := 0, device := [], rd_before := [1, 0, 0, 0, 0, 0, 0, 0] } = .ok 1 ∧
      read_ulong_urandom
        { env_with 64 fun k => k with
          read_result := 0, device := [], rd_before := [2, 0, 0, 0, 0, 0, 0, 0] } = .ok 2 ∧
      read_ulong_urandom
        { env_with 64 fun k => k with
          read_result := 3, device := [9, 9, 9], rd_before := [0, 0, 0, 1, 0, 0, 0, 0] } =
        .ok (9 + 9 * 2 ^ 8 + 9 * 2 ^ 16 + 1 * 2 ^ 24) ∧
      read_ulong_urandom { env_with 64 fun k => k with open_result := -1, errno := 2 } =
        .error (.exit 2 "Error interacting with/dev/urandom: ") ∧
      read_ulong_urandom { env_with 64 fun k => k with read_result := -1, errno := 5 } =
        .error (.exit 5 "Error interacting with/dev/urandom: ") := by
  refine ⟨?_, ?_, ?_, ?_, ?_⟩ <;> rfl

/-! ## `fill_polynomial` on any buffer -/

theorem draw_range (stream : Nat → Nat) (limit j : Nat) :
    0 ≤ draw stream limit j ∧ draw stream limit j < 2 ^ limit := by
  constructor
  · exact Int.natCast_nonneg _
  · have : stream j % 2 ^ limit < 2 ^ limit := Nat.mod_lt _ (by positivity)
    simp only [draw]
    exact_mod_cast this

/-- On a buffer of `nterms >= 1` elements, whatever it holds, `fill_polynomial`
returns the secret followed by `nterms - 1` successive draws. -/
theorem fill_polynomial_any (buf : List mpz_t) (state : gmp_randstate_t) (nterms : Int)
    (limit : Nat) (secret : mpz_t) (h : 1 ≤ nterms) (hb : buf.length = nterms.toNat) :
    fill_polynomial buf state nterms limit secret =
      .ok (secret :: (List.range (nterms.toNat - 1)).map
            (fun j => draw state.stream limit (state.taken + j)),
          { state with taken := state.taken + (nterms.toNat - 1) }) := by
  obtain ⟨m, hm⟩ : ∃ m : Nat, nterms.toNat = m + 1 := ⟨nterms.toNat - 1, by omega⟩
  have hk : (nterms - 1).toNat = m := by omega
  obtain ⟨b0, rest, rfl⟩ : ∃ b0 rest, buf = b0 :: rest := by
    cases buf with
    | nil => simp [hm] at hb
    | cons b0 rest => exact ⟨b0, rest, rfl⟩
  have hrest : rest.length = m := by simpa [hm] using hb
  have hs (a v : mpz_t) : store (a :: rest) 0 v = .ok (v :: rest) := by
    simp [store]
  rw [fill_polynomial]
  simp only [hs, hk, hm, Nat.add_sub_cancel]
  have := fill_polynomial_loop_eq limit m [secret] rest [] state hrest
  simpa using this

/-- C11 (polynomial filling): on a buffer of `nterms >= 1` elements
`fill_polynomial` returns a polynomial of exactly `nterms` coefficients; element
0 is the secret, element `j` for `1 <= j < nterms` is the value of the `j`-th
successive call of `mpz_urandomb`, which lies in `[0, 2^limit)`. With a working
`/dev/urandom`, `build_polynomial` returns the same with `limit = MPZ_LIMIT`
and the generator seeded from the device. -/
theorem C11_fill_polynomial (env : Env) (buf : List mpz_t) (state : gmp_randstate_t)
    (nterms : Int) (limit : Nat) (secret : mpz_t)
    (h : 1 ≤ nterms) (hb : buf.length = nterms.toNat) :
    (∃ poly state1, fill_polynomial buf state nterms limit secret = .ok (poly, state1) ∧
      (poly.length : Int) = nterms ∧ poly.get? 0 = some secret ∧
      state1.taken = state.taken + (nterms.toNat - 1) ∧
      ∀ j : Nat, 1 ≤ j → (j : Int) < nterms →
        poly.get? j = some (draw state.stream limit (state.taken + (j - 1))) ∧
        0 ≤ draw state.stream limit (state.taken + (j - 1)) ∧
        draw state.stream limit (state.taken + (j - 1)) < 2 ^ limit) ∧
    (0 ≤ env.open_result → 0 ≤ env.read_result →
      ∃ poly, build_polynomial env buf nterms secret = .ok poly ∧
        (poly.length : Int) = nterms ∧ poly.get? 0 = some secret ∧
        ∀ j : Nat, 1 ≤ j → (j : Int) < nterms →
          poly.get? j = some (draw (env.gmp_default (seed_of env)) env.MPZ_LIMIT (j - 1)) ∧
          0 ≤ draw (env.gmp_default (seed_of env)) env.MPZ_LIMIT (j - 1) ∧
          draw (env.gmp_default (seed_of env)) env.MPZ_LIMIT (j - 1) < 2 ^ env.MPZ_LIMIT) := by
  have key (st : gmp_randstate_t) (lim : Nat) :
      ((secret :: (List.range (nterms.toNat - 1)).map
          (fun j => draw st.stream lim (st.taken + j))).length : Int) = nterms ∧
      (secret :: (List.range (nterms.toNat - 1)).map
          (fun j => draw st.stream lim (st.taken + j))).get? 0 = some secret ∧
      ∀ j : Nat, 1 ≤ j → (j : Int) < nterms →
        (secret :: (List.range (nterms.toNat - 1)).map
          (fun j => draw st.stream lim (st.taken + j))).get? j =
            some (draw st.stream lim (st.taken + (j - 1))) ∧
        0 ≤ draw st.stream lim (st.taken + (j - 1)) ∧
        draw st.stream lim (st.taken + (j - 1)) < 2 ^ lim := by
    refine ⟨?_, rfl, ?_⟩
    · simp only [List.length_cons, List.length_map, List.length_range]
      omega
    · intro j h1 hj
      obtain ⟨i, rfl⟩ : ∃ i, j = i + 1 := ⟨j - 1, by omega⟩
      have hi : i < nterms.toNat - 1 := by omega
      refine ⟨?_, draw_range _ _ _⟩
      simp [List.getElem?_range hi, hi]
  constructor
  · refine ⟨_, _, fill_polynomial_any buf state nterms limit secret h hb, (key state limit).1,
      (key state limit).2.1, rfl, (key state limit).2.2⟩
  · intro ho hr
    have hf := fill_polynomial_any buf (gmp_randseed_ui env (seed_of env)) nterms env.MPZ_LIMIT
      secret h hb
    have hbuild : build_polynomial env buf nterms secret =
        .ok (secret :: (List.range (nterms.toNat - 1)).map
          (fun j => draw (gmp_randseed_ui env (seed_of env)).stream env.MPZ_LIMIT
            ((gmp_randseed_ui env (seed_of env)).taken + j))) := by
      simp only [build_polynomial, read_ulong_urandom_ok env ho hr, hf]
    have k := key (gmp_randseed_ui env (seed_of env)) env.MPZ_LIMIT
    simp only [gmp_randseed_ui, Nat.zero_add] at k hbuild
    exact ⟨_, hbuild, k.1, k.2.1, k.2.2⟩

/-- Witness of C11: a buffer of 3 elements. -/
theorem C11_fill_polynomial_witness :
    (∃ poly state1, fill_polynomial [5, 6, 7] ⟨fun k => k + 9, 0⟩ 3 8 1234 = .ok (poly, state1) ∧
      (poly.length : Int) = 3 ∧ poly.get? 0 = some 1234 ∧
      state1.taken = 0 + ((3 : Int).toNat - 1) ∧
      ∀ j : Nat, 1 ≤ j → (j : Int) < 3 →
        poly.get? j = some (draw (fun k => k + 9) 8 (0 + (j - 1))) ∧
        0 ≤ draw (fun k => k + 9) 8 (0 + (j - 1)) ∧
        draw (fun k => k + 9) 8 (0 + (j - 1)) < 2 ^ 8) ∧
    (0 ≤ (env_with 8 fun k => k + 9).open_result → 0 ≤ (env_with 8 fun k => k + 9).read_result →
      ∃ poly, build_polynomial (env_with 8 fun k => k + 9) [5, 6, 7] 3 1234 = .ok poly ∧
        (poly.length : Int) = 3 ∧ poly.get? 0 = some 1234 ∧
        ∀ j : Nat, 1 ≤ j → (j : Int) < 3 →
          poly.get? j = some (draw ((env_with 8 fun k => k + 9).gmp_default
            (seed_of (env_with 8 fun k => k + 9))) (env_with 8 fun k => k + 9).MPZ_LIMIT (j - 1)) ∧
          0 ≤ draw ((env_with 8 fun k => k + 9).gmp_default
            (seed_of (env_with 8 fun k => k + 9))) (env_with 8 fun k => k + 9).MPZ_LIMIT (j - 1) ∧
          draw ((env_with 8 fun k => k + 9).gmp_default
            (seed_of (env_with 8 fun k => k + 9))) (env_with 8 fun k => k + 9).MPZ_LIMIT (j - 1)
              < 2 ^ (env_with 8 fun k => k + 9).MPZ_LIMIT) :=
  C11_fill_polynomial (env_with 8 fun k => k + 9) [5, 6, 7] ⟨fun k => k + 9, 0⟩ 3 8 1234
    (by decide) (by decide)

/-! ## `bytes_to_ulong` -/

theorem wrap_int_range (v : Int) : -2 ^ 31 ≤ wrap_int v ∧ wrap_int v < 2 ^ 31 := by
  unfold wrap_int
  have h1 := Int.emod_nonneg (v + 2 ^ 31) (show (2 : Int) ^ 32 ≠ 0 by norm_num)
  have h2 := Int.emod_lt_of_pos (v + 2 ^ 31) (show (0 : Int) < 2 ^ 32 by norm_num)
  constructor <;> omega

/-- What the loop of `bytes_to_ulong` returns is the sum of `int` terms taken
modulo `2^64`: after `k` more rounds the sum has moved by less than `k * 2^31`. -/
theorem bytes_to_ulong_loop_sum (bytes : List Int) (k : Nat) :
    ∀ (i n : Nat) (s : Int) (m : Nat), (n : Int) = s % 2 ^ 64 →
      -(m : Int) * 2 ^ 31 ≤ s → s ≤ (m : Int) * 2 ^ 31 →
      ∃ s1 : Int, (bytes_to_ulong_loop bytes k i n : Int) = s1 % 2 ^ 64 ∧
        -((m + k : Nat) : Int) * 2 ^ 31 ≤ s1 ∧ s1 ≤ ((m + k : Nat) : Int) * 2 ^ 31 := by
  induction k with
  | zero =>
    intro i n s m hn h1 h2
    exact ⟨s, by simpa [bytes_to_ulong_loop] using hn, by simpa using h1, by simpa using h2⟩
  | succ k ih =>
    intro i n s m hn h1 h2
    have ht := wrap_int_range (bytes.getD i 0 * 2 ^ (i * 8 % 32))
    have hnn : (0 : Int) ≤ ((n : Int) + shl_int (bytes.getD i 0) (i * 8)) % 2 ^ 64 :=
      Int.emod_nonneg _ (by norm_num)
    have hstep : (((((n : Int) + shl_int (bytes.getD i 0) (i * 8)) % 2 ^ 64).toNat : Nat) : Int)
        = (s + shl_int (bytes.getD i 0) (i * 8)) % 2 ^ 64 := by
      rw [Int.toNat_of_nonneg hnn, hn, Int.emod_add_emod]
    obtain ⟨s1, e1, l1, u1⟩ := ih (i + 1) _ (s + shl_int (bytes.getD i 0) (i * 8)) (m + 1) hstep
      (by simp only [shl_int]; push_cast; linarith [ht.1])
      (by simp only [shl_int]; push_cast; linarith [ht.2])
    refine ⟨s1, by simpa [bytes_to_ulong_loop] using e1, ?_, ?_⟩
    · have : m + 1 + k = m + (k + 1) := by omega
      rw [← this]; exact l1
    · have : m + 1 + k = m + (k + 1) := by omega
      rw [← this]; exact u1

/-- No array of 8 characters is decoded to `2^40`. -/
theorem bytes_to_ulong_ne (bytes : List Int) : bytes_to_ulong bytes ≠ 2 ^ 40 := by
  obtain ⟨s, e, l, u⟩ := bytes_to_ulong_loop_sum bytes 8 0 0 0 0 (by simp) (by simp) (by simp)
  intro h
  unfold bytes_to_ulong at h
  rw [h] at e
  push_cast at e l u
  omega

/-- C12 (little-endian decoding) fails on the two cases to check. The byte
`0xFF` is the `char` -1, and the array `[0xFF, 0, ..]` is decoded to `2^64 - 1`,
not 255. The byte 1 at index 4 is shifted as an `int`, and `[0, 0, 0, 0, 1, 0, 0, 0]`
is decoded to 1, the result for `[1, 0, ..]` too, not `2^32`. No array is
decoded to `2^40`. -/
theorem C12_bytes_to_ulong_not_little_endian :
    bytes_to_ulong ([255, 0, 0, 0, 0, 0, 0, 0].map char_of_byte) = 2 ^ 64 - 1 ∧
      little_endian [255, 0, 0, 0, 0, 0, 0, 0] = 255 ∧
      bytes_to_ulong ([0, 0, 0, 0, 1, 0, 0, 0].map char_of_byte) = 1 ∧
      little_endian [0, 0, 0, 0, 1, 0, 0, 0] = 2 ^ 32 ∧
      bytes_to_ulong ([1, 0, 0, 0, 0, 0, 0, 0].map char_of_byte) = 1 ∧
      ∀ bytes : List Int, bytes_to_ulong bytes ≠ 2 ^ 40 := by
  refine ⟨by decide, by decide, by decide, by decide, by decide, bytes_to_ulong_ne⟩

/-- On four bytes below 128 followed by zero bytes the decoding is little-endian. -/
theorem bytes_to_ulong_small :
    bytes_to_ulong ([1, 2, 3, 4, 0, 0, 0, 0].map char_of_byte) =
      little_endian [1, 2, 3, 4, 0, 0, 0, 0] := by
  decide

/-! ## `str_to_int` -/

/-- C13 (string to integer): the strings "5", "0" and "1000" give their
numbers, and "12a", "abc", " " and a number beyond `long` stop the run; but the
empty string returns 0 and "-2147483649", which no `int` holds, returns that
number. -/
theorem C13_str_to_int_cases :
    str_to_int ['5'] = .ok 5 ∧ str_to_int ['0'] = .ok 0 ∧
      str_to_int ['1', '0', '0', '0'] = .ok 1000 ∧
      str_to_int ['1', '2', 'a'] = .error (.exit 1 "Faulty string") ∧
      str_to_int ['a', 'b', 'c'] = .error (.exit 1 "Faulty string") ∧
      str_to_int [' '] = .error (.exit 1 "Faulty string") ∧
      str_to_int "2147483648".toList = .error (.exit 1 "Number too large!") ∧
      str_to_int "9223372036854775808".toList =
        .error (.exit ERANGE "Numerical result out of range") ∧
      str_to_int [] = .ok 0 ∧
      str_to_int "-2147483649".toList = .ok (-2147483649) := by
  refine ⟨?_, ?_, ?_, ?_, ?_, ?_, ?_, ?_, ?_, ?_⟩ <;> rfl

/-! ## Index safety of the polynomial buffer -/

/-- C17 (polynomial index safety), at `nshares = 5` with `min = 1` and
`min = 0`: the guard `nshares < min` lets both pass, the buffer of
`nterms = min - 1` elements has no element, and the first write of
`fill_polynomial`, at index 0, is outside it. -/
theorem C17_first_write_outside_buffer :
    ¬ ((5 : Int) < 1) ∧ malloc (0 : mpz_t) ((1 : Int) - 1) = [] ∧
      store (malloc (0 : mpz_t) ((1 : Int) - 1)) 0 (0 : mpz_t) = .error .fault ∧
      fill_polynomial (malloc (0 : mpz_t) ((1 : Int) - 1)) ⟨fun k => k, 0⟩ ((1 : Int) - 1) 64 1234 =
        .error .fault ∧
      build_polynomial (env_with 64 fun k => k) (malloc (0 : mpz_t) ((1 : Int) - 1)) (1 - 1) 1234 =
        .error .fault ∧
      ¬ ((5 : Int) < 0) ∧ malloc (0 : mpz_t) ((0 : Int) - 1) = [] ∧
      fill_polynomial (malloc (0 : mpz_t) ((0 : Int) - 1)) ⟨fun k => k, 0⟩ ((0 : Int) - 1) 64 1234 =
        .error .fault ∧
      build_polynomial (env_with 64 fun k => k) (malloc (0 : mpz_t) ((0 : Int) - 1)) (0 - 1) 1234 =
        .error .fault := by
  refine ⟨by decide, rfl, rfl, rfl, rfl, by decide, rfl, rfl, rfl⟩

/-- With a working `/dev/urandom` and a share count that fits an `int`, a run
of `create_shares` ends in an access outside a buffer exactly when it passes
the guard with `min <= 1`. -/
theorem create_shares_fault_iff (env : Env) (nshares min : Int) (secret : mpz_t)
    (ho : 0 ≤ env.open_result) (hr : 0 ≤ env.read_result) (hmax : nshares ≤ INT_MAX) :
    create_shares env nshares min secret = .error .fault ↔ (min ≤ nshares ∧ min ≤ 1) := by
  constructor
  · intro h
    by_cases hlt : nshares < min
    · rw [create_shares_einval env nshares min secret hlt] at h
      cases h
    · by_cases hmin : min ≤ 1
      · exact ⟨not_lt.mp hlt, hmin⟩
      · rw [create_shares_eq env nshares min secret ho hr (by omega) (not_lt.mp hlt) hmax] at h
        cases h
  · rintro ⟨hle, hmin⟩
    exact create_shares_fault env nshares min secret ho hr hmin hle

/-- The threshold 1 with 5 shares ends outside the buffer. -/
theorem create_shares_fault_iff_witness :
    create_shares (env_with 64 fun k => k) 5 1 1234 = .error .fault ↔
      ((1 : Int) ≤ 5 ∧ (1 : Int) ≤ 1) :=
  create_shares_fault_iff (env_with 64 fun k => k) 5 1 1234 (by decide) (by decide) (by decide)

/-! ## The loops of `get_name_encrypted_file` -/

theorem strlen_eq_length (s : List Char) (h : '\x00' ∉ s) : strlen s = s.length := by
  unfold strlen
  rw [List.takeWhile_eq_self_iff.mpr]
  intro c hc
  have : c ≠ '\x00' := fun e => h (e ▸ hc)
  simpa using this

theorem store_append_right {α : Type} (pre l : List α) (j : Nat) (v : α) (h : j < l.length) :
    store (pre ++ l) (pre.length + j) v = .ok (pre ++ l.set j v) := by
  have h1 : pre.length + j < (pre ++ l).length := by simp; omega
  rw [store_ok _ _ _ h1, List.set_append_right _ _ (by omega)]
  simp

theorem copy_name_loop_eq (todo : List Char) :
    ∀ (done bdone mid suf : List Char) (fuel : Nat), done.length = bdone.length →
      mid.length = todo.length → todo.length < fuel → '\x00' ∉ todo →
      copy_name_loop (done ++ todo) fuel done.length (bdone ++ mid ++ suf) =
        .ok (bdone ++ todo ++ suf, done.length + todo.length) := by
  induction todo with
  | nil =>
    intro done bdone mid suf fuel _ hm hf _
    obtain ⟨k, rfl⟩ : ∃ k, fuel = k + 1 := ⟨fuel - 1, by simp at hf; omega⟩
    have : mid = [] := List.length_eq_zero.mp (by simpa using hm)
    subst this
    simp [copy_name_loop]
  | cons c todo ih =>
    intro done bdone mid suf fuel hd hm hf hnul
    obtain ⟨k, rfl⟩ : ∃ k, fuel = k + 1 := ⟨fuel - 1, by simp at hf; omega⟩
    obtain ⟨m, mid1, rfl⟩ := List.exists_cons_of_length_eq_add_one (by simpa using hm)
    have hc : c ≠ '\x00' := fun e => hnul (by simp [e])
    have hget : (done ++ c :: todo).getD done.length '\x00' = c := by
      rw [List.getD_eq_getElem?_getD, List.getElem?_append_right (le_refl _)]
      simp
    have e1 : bdone ++ m :: mid1 ++ suf = bdone ++ m :: (mid1 ++ suf) := by simp
    have hst : store (bdone ++ m :: (mid1 ++ suf)) done.length c =
        .ok (bdone ++ c :: (mid1 ++ suf)) := by
      rw [hd]; exact store_mid bdone (mid1 ++ suf) m c
    rw [copy_name_loop, hget, if_neg hc, e1, hst]
    simp only []
    have e2 : done ++ c :: todo = (done ++ [c]) ++ todo := by simp
    have e3 : bdone ++ c :: (mid1 ++ suf) = (bdone ++ [c]) ++ mid1 ++ suf := by simp
    have e4 : done.length + 1 = (done ++ [c]).length := by simp
    rw [e2, e3, e4, ih (done ++ [c]) (bdone ++ [c]) mid1 suf k (by simp [hd])
      (by simpa using hm) (by simp at hf; omega) (fun h => hnul (List.mem_cons_of_mem c h))]
    simp
    omega

theorem strcpy_loop_eq (todo : List Char) :
    ∀ (pre ssuf dpre dmid dsuf : List Char) (fuel : Nat), pre.length = dpre.length →
      dmid.length = todo.length + 1 → todo.length < fuel → '\x00' ∉ todo →
      strcpy_loop (pre ++ todo ++ '\x00' :: ssuf) fuel pre.length (dpre ++ dmid ++ dsuf) =
        .ok (dpre ++ todo ++ '\x00' :: dsuf) := by
  induction todo with
  | nil =>
    intro pre ssuf dpre dmid dsuf fuel hp hm hf _
    obtain ⟨k, rfl⟩ : ∃ k, fuel = k + 1 := ⟨fuel - 1, by simp at hf; omega⟩
    obtain ⟨m, mid1, rfl⟩ := List.exists_cons_of_length_eq_add_one (by simpa using hm)
    have : mid1 = [] := List.length_eq_zero.mp (by simpa using hm)
    subst this
    have hst : store (dpre ++ [m] ++ dsuf) pre.length '\x00' = .ok (dpre ++ '\x00' :: dsuf) := by
      rw [hp]
      have := store_mid dpre dsuf m '\x00'
      simpa using this
    rw [strcpy_loop]
    simp only [List.append_nil, load_mid, hst, if_true]
  | cons c todo ih =>
    intro pre ssuf dpre dmid dsuf fuel hp hm hf hnul
    obtain ⟨k, rfl⟩ : ∃ k, fuel = k + 1 := ⟨fuel - 1, by simp at hf; omega⟩
    obtain ⟨m, mid1, rfl⟩ := List.exists_cons_of_length_eq_add_one (by simpa using hm)
    have hc : c ≠ '\x00' := fun e => hnul (by simp [e])
    have e1 : pre ++ c :: todo ++ '\x00' :: ssuf = pre ++ c :: (todo ++ '\x00' :: ssuf) := by simp
    have e2 : dpre ++ m :: mid1 ++ dsuf = dpre ++ m :: (mid1 ++ dsuf) := by simp
    have hst : store (dpre ++ m :: (mid1 ++ dsuf)) pre.length c =
        .ok (dpre ++ c :: (mid1 ++ dsuf)) := by
      rw [hp]; exact store_mid dpre (mid1 ++ dsuf) m c
    rw [strcpy_loop, e1, load_mid, e2]
    simp only [hst, if_neg hc]
    have e3 : pre ++ c :: (todo ++ '\x00' :: ssuf) = (pre ++ [c]) ++ todo ++ '\x00' :: ssuf := by
      simp
    have e4 : dpre ++ c :: (mid1 ++ dsuf) = (dpre ++ [c]) ++ mid1 ++ dsuf := by simp
    have e5 : pre.length + 1 = (pre ++ [c]).length := by simp
    rw [e3, e4, e5, ih (pre ++ [c]) ssuf (dpre ++ [c]) mid1 dsuf k (by simp [hp])
      (by simpa using hm) (by simp at hf; omega) (fun h => hnul (List.mem_cons_of_mem c h))]
    simp

theorem namesize_eq (s : List Char) (h : '\x00' ∉ s) :
    get_namesize_encrypted_file s = ((s.length + 5 : Nat) : Int) := by
  have h4 : strlen ENCRYPTED_EXT = 4 := by decide
  simp only [get_namesize_encrypted_file, strlen_eq_length s h, h4]

theorem store_append_zero {α : Type} (pre l : List α) (v : α) (h : 0 < l.length) :
    store (pre ++ l) pre.length v = .ok (pre ++ l.set 0 v) :=
  store_append_right pre l 0 v h

/-- The array `newname_` when `strcpy` is reached: the name, then five places
that depend on the order in which `newname_[i+j] = ENCRYPTED_EXT[j++]` is
carried out. -/
theorem newname_of_eq (index_first : Bool) (stack : Nat → Char) (s : List Char)
    (h : '\x00' ∉ s) :
    newname_of index_first stack s =
      .ok (s ++ if index_first then ['.', 'a', 'e', 's', '\x00']
        else [stack s.length, '.', 'a', 'e', '\x00']) := by
  have h4 : strlen ENCRYPTED_EXT = 4 := by decide
  have hbuf : (List.range (get_namesize_encrypted_file s).toNat).map stack =
      [] ++ (List.range s.length).map stack ++ [stack s.length, stack (s.length + 1),
        stack (s.length + 2), stack (s.length + 3), stack (s.length + 4)] := by
    rw [namesize_eq s h]
    simp only [Int.toNat_ofNat, List.range_add, List.map_append, List.nil_append]
    rfl
  have hcopy := copy_name_loop_eq s [] [] ((List.range s.length).map stack)
    [stack s.length, stack (s.length + 1), stack (s.length + 2), stack (s.length + 3),
      stack (s.length + 4)] (s.length + 1) rfl (by simp) (by omega) h
  simp only [List.nil_append, List.length_nil, Nat.zero_add] at hcopy hbuf
  unfold newname_of
  simp only [hbuf, hcopy, h4]
  cases index_first <;>
    simp [append_ext_loop, ENCRYPTED_EXT, store_append_right, store_append_zero, Nat.add_assoc]

/-- With the index computed before the increment, `encname` receives the
name followed by ".aes" and NUL. -/
theorem get_name_encrypted_file_index_first (stack : Nat → Char) (s encname : List Char)
    (h : '\x00' ∉ s) (hlen : (encname.length : Int) = get_namesize_encrypted_file s) :
    get_name_encrypted_file true stack s encname = .ok (s ++ ENCRYPTED_EXT ++ ['\x00']) := by
  have hl : encname.length = s.length + 5 := by
    rw [namesize_eq s h] at hlen; exact_mod_cast hlen
  have := strcpy_loop_eq (s ++ ['.', 'a', 'e', 's']) [] [] [] encname []
    ((s ++ ['.', 'a', 'e', 's', '\x00']).length + 1) rfl (by simp [hl]) (by simp)
    (by
      intro hm
      rcases List.mem_append.mp hm with hm | hm
      · exact h hm
      · revert hm; decide)
  simp only [List.nil_append, List.length_nil, List.append_nil, List.append_assoc,
    List.cons_append] at this
  simp only [get_name_encrypted_file, newname_of_eq true stack s h, if_true, strcpy]
  simpa [ENCRYPTED_EXT] using this

/-- With the increment carried out first, as GCC compiles the statement,
`get_name_encrypted_file` returns without leaving its buffers, and `encname`
never holds the name followed by ".aes" and NUL. -/
theorem get_name_encrypted_file_increment_first (stack : Nat → Char) (s encname : List Char)
    (h : '\x00' ∉ s) (hlen : (encname.length : Int) = get_namesize_encrypted_file s) :
    ∃ r, get_name_encrypted_file false stack s encname = .ok r ∧
      r ≠ s ++ ENCRYPTED_EXT ++ ['\x00'] := by
  have hl : encname.length = s.length + 5 := by
    rw [namesize_eq s h] at hlen; exact_mod_cast hlen
  simp only [get_name_encrypted_file, newname_of_eq false stack s h, strcpy]
  by_cases hg : stack s.length = '\x00'
  · obtain ⟨d1, d2, hd, hd1⟩ : ∃ d1 d2, encname = d1 ++ d2 ∧ d1.length = s.length + 1 :=
      ⟨encname.take (s.length + 1), encname.drop (s.length + 1), by simp, by simp [hl]⟩
    have := strcpy_loop_eq s [] ['.', 'a', 'e', '\x00'] [] d1 d2
      ((s ++ [stack s.length, '.', 'a', 'e', '\x00']).length + 1) rfl hd1 (by simp; omega) h
    simp only [List.nil_append, List.length_nil] at this
    refine ⟨s ++ '\x00' :: d2, ?_, ?_⟩
    · simpa [hg, hd] using this
    · intro he
      simp [ENCRYPTED_EXT] at he
  · have := strcpy_loop_eq (s ++ [stack s.length, '.', 'a', 'e']) [] [] [] encname []
      ((s ++ [stack s.length, '.', 'a', 'e', '\x00']).length + 1) rfl (by simp [hl]) (by simp)
      (by
        intro hm
        rcases List.mem_append.mp hm with hm | hm
        · exact h hm
        · simp only [List.mem_cons, List.mem_singleton] at hm
          rcases hm with hm | hm | hm | hm | hm
          · exact hg hm.symm
          all_goals (revert hm; decide))
    simp only [List.nil_append, List.length_nil, List.append_nil, List.append_assoc,
      List.cons_append] at this
    refine ⟨s ++ [stack s.length, '.', 'a', 'e', '\x00'], ?_, ?_⟩
    · simpa using this
    · intro he
      simp [ENCRYPTED_EXT] at he

/-- The name "plain.txt" with the index computed first. -/
theorem get_name_encrypted_file_index_first_witness :
    get_name_encrypted_file true (fun _ => '#') ['p', 'l', 'a', 'i', 'n', '.', 't', 'x', 't']
        (List.replicate 14 '?') =
      .ok (['p', 'l', 'a', 'i', 'n', '.', 't', 'x', 't'] ++ ENCRYPTED_EXT ++ ['\x00']) :=
  get_name_encrypted_file_index_first (fun _ => '#')
    ['p', 'l', 'a', 'i', 'n', '.', 't', 'x', 't'] (List.replicate 14 '?') (by decide) (by decide)

/-- The name "plain.txt" with the increment carried out first. -/
theorem get_name_encrypted_file_increment_first_witness :
    ∃ r, get_name_encrypted_file false (fun _ => '#')
        ['p', 'l', 'a', 'i', 'n', '.', 't', 'x', 't'] (List.replicate 14 '?') = .ok r ∧
      r ≠ ['p', 'l', 'a', 'i', 'n', '.', 't', 'x', 't'] ++ ENCRYPTED_EXT ++ ['\x00'] :=
  get_name_encrypted_file_increment_first (fun _ => '#')
    ['p', 'l', 'a', 'i', 'n', '.', 't', 'x', 't'] (List.replicate 14 '?') (by decide) (by decide)

/-! ## `get_password` -/

theorem get_password_loop_ok (stdin : List Char) :
    ∀ (i : Nat) (pass p : List Char) (k : Nat), get_password_loop stdin i pass = .ok (p, k) →
      k = i + (stdin.takeWhile fun c => c ≠ '\n').length ∧ p.length = pass.length ∧
        (i ≤ MAX_PASS_LEN → k ≤ MAX_PASS_LEN) := by
  induction stdin with
  | nil =>
    intro i pass p k h
    simp only [get_password_loop, Except.ok.injEq, Prod.mk.injEq] at h
    obtain ⟨rfl, rfl⟩ := h
    simp
  | cons c rest ih =>
    intro i pass p k h
    by_cases hc : c = '\n'
    · simp only [get_password_loop, hc, if_true, Except.ok.injEq, Prod.mk.injEq] at h
      obtain ⟨rfl, rfl⟩ := h
      simp [hc]
    · simp only [get_password_loop, hc, if_false] at h
      by_cases hi : i < pass.length
      · rw [store_ok pass i c hi] at h
        simp only [] at h
        by_cases hm : MAX_PASS_LEN < i + 1
        · simp only [hm, if_true] at h
          cases h
        · simp only [hm, if_false] at h
          obtain ⟨h1, h2, h3⟩ := ih (i + 1) _ p k h
          refine ⟨?_, ?_, ?_⟩
          · simp only [ne_eq] at h1 ⊢
            simp only [List.takeWhile_cons, hc, not_false_eq_true, decide_True, if_true,
              List.length_cons]
            omega
          · simpa using h2
          · intro _; exact h3 (by omega)
      · simp only [store, hi, if_false] at h
        cases h

/-- When `get_password` returns, `keysize` is the number of characters before
the first newline or the end of the input, it is at most `MAX_PASS_LEN`, and
it is an index of the buffer: the terminating NUL was written inside. -/
theorem get_password_ok (stdin pass p : List Char) (k : Int)
    (h : get_password stdin pass = .ok (p, k)) :
    k = ((stdin.takeWhile fun c => c ≠ '\n').length : Int) ∧ k ≤ (MAX_PASS_LEN : Int) ∧
      k < (pass.length : Int) := by
  unfold get_password at h
  cases hl : get_password_loop stdin 0 pass with
  | error e => rw [hl] at h; cases h
  | ok r =>
    obtain ⟨p1, i⟩ := r
    rw [hl] at h
    simp only [] at h
    obtain ⟨h1, h2, h3⟩ := get_password_loop_ok stdin 0 pass p1 i hl
    by_cases hi : i < p1.length
    · rw [store_ok p1 i _ hi] at h
      simp only [Except.ok.injEq, Prod.mk.injEq] at h
      obtain ⟨_, rfl⟩ := h
      refine ⟨by simp [h1], by exact_mod_cast h3 (Nat.zero_le _), by rw [← h2]; exact_mod_cast hi⟩
    · simp only [store, hi, if_false] at h
      cases h

/-- C18 (password buffer safety), with the buffer of `MAX_PASS_LEN = 3` bytes
that `main` allocates: on the 3-character password "abc" the terminating NUL
is written at index 3, outside the buffer, and on the 4-character password
"abcd" the character 'd' is written at index 3 before the length is tested.
A buffer of 4 bytes shows where the writes go: "abc" returns with NUL at
index 3 and `keysize = 3`, and "abcd" stops with "Password too long" only after
the write at index 3. The 2-character password "ab" stays inside the buffer. -/
theorem C18_password_write_outside_buffer :
    get_password ['a', 'b', 'c', '\n'] (malloc '#' (MAX_PASS_LEN : Int)) = .error .fault ∧
      get_password ['a', 'b', 'c', 'd', '\n'] (malloc '#' (MAX_PASS_LEN : Int)) = .error .fault ∧
      get_password ['a', 'b', 'c', '\n'] (malloc '#' ((MAX_PASS_LEN : Int) + 1)) =
        .ok (['a', 'b', 'c', '\x00'], 3) ∧
      get_password ['a', 'b', 'c', 'd', '\n'] (malloc '#' ((MAX_PASS_LEN : Int) + 1)) =
        .error (.exit 1 "Password too long") ∧
      get_password ['a', 'b', '\n'] (malloc '#' (MAX_PASS_LEN : Int)) =
        .ok (['a', 'b', '\x00'], 2) := by
  refine ⟨?_, ?_, ?_, ?_, ?_⟩ <;> rfl

/-- A password of 2 characters returns with `keysize = 2`. -/
theorem get_password_ok_witness :
    (2 : Int) = ((['a', 'b', '\n'].takeWhile fun c => c ≠ '\n').length : Int) ∧
      (2 : Int) ≤ (MAX_PASS_LEN : Int) ∧ (2 : Int) < (['#', '#', '#'].length : Int) :=
  get_password_ok ['a', 'b', '\n'] ['#', '#', '#'] ['a', 'b', '\x00'] 2 rfl

theorem get_password_loop_no_exit (stdin : List Char) :
    ∀ (i : Nat) (pass : List Char) (e : Stop), pass.length ≤ MAX_PASS_LEN →
      get_password_loop stdin i pass = .error e → e = .fault := by
  induction stdin with
  | nil => intro i pass e _ h; simp [get_password_loop] at h
  | cons c rest ih =>
    intro i pass e hp h
    by_cases hc : c = '\n'
    · simp [get_password_loop, hc] at h
    · simp only [get_password_loop, hc, if_false] at h
      by_cases hi : i < pass.length
      · rw [store_ok pass i c hi] at h
        simp only [] at h
        have hm : ¬ MAX_PASS_LEN < i + 1 := by omega
        simp only [hm, if_false] at h
        exact ih (i + 1) _ e (by simpa using hp) h
      · simp only [store, hi, if_false] at h
        injection h with h
        exact h.symm

/-- With a buffer of `MAX_PASS_LEN` bytes, as `main` allocates it, every input
with `MAX_PASS_LEN` or more characters before the first newline or the end of
the input ends in a write outside the buffer; the exit with "Password too
long" is never reached. -/
theorem get_password_fault (stdin pass : List Char) (hp : pass.length = MAX_PASS_LEN)
    (hlong : MAX_PASS_LEN ≤ (stdin.takeWhile fun c => c ≠ '\n').length) :
    get_password stdin pass = .error .fault := by
  cases hr : get_password stdin pass with
  | ok r =>
    obtain ⟨p, k⟩ := r
    obtain ⟨h1, _, h3⟩ := get_password_ok stdin pass p k hr
    rw [hp] at h3
    omega
  | error e =>
    unfold get_password at hr
    cases hl : get_password_loop stdin 0 pass with
    | error e1 =>
      rw [hl] at hr
      simp only [] at hr
      injection hr with hr
      rw [← hr, get_password_loop_no_exit stdin 0 pass e1 (by omega) hl]
    | ok r =>
      obtain ⟨p1, i⟩ := r
      rw [hl] at hr
      simp only [] at hr
      by_cases hi : i < p1.length
      · rw [store_ok p1 i _ hi] at hr
        cases hr
      · simp only [store, hi, if_false] at hr
        injection hr with hr
        rw [← hr]

/-- The password "abcd" with the buffer of 3 bytes. -/
theorem get_password_fault_witness :
    get_password ['a', 'b', 'c', 'd', '\n'] ['#', '#', '#'] = .error .fault :=
  get_password_fault ['a', 'b', 'c', 'd', '\n'] ['#', '#', '#'] (by decide) (by decide)

/-! ## `get_name_encrypted_file` -/

/-- C14 (encrypted file name), on the name "a" with a buffer of the size
`get_namesize_encrypted_file` returns, 6: in the order GCC compiles
`newname_[i+j] = ENCRYPTED_EXT[j++]`, with the increment first, index 1 keeps
what the stack held (here '#'), ".aes" lands one place late and the final NUL
replaces the 's', so `encname` receives "a#.ae", not "a.aes". No index beyond 5
is written. With the index computed first the result is "a.aes". -/
theorem C14_extension_written_one_late :
    get_namesize_encrypted_file ['a'] = 6 ∧
      get_name_encrypted_file false (fun _ => '#') ['a']
          (malloc '?' (get_namesize_encrypted_file ['a'])) =
        .ok ['a', '#', '.', 'a', 'e', '\x00'] ∧
      get_name_encrypted_file false (fun _ => '\x00') ['a']
          (malloc '?' (get_namesize_encrypted_file ['a'])) =
        .ok ['a', '\x00', '?', '?', '?', '?'] ∧
      get_name_encrypted_file true (fun _ => '#') ['a']
          (malloc '?' (get_namesize_encrypted_file ['a'])) =
        .ok ['a', '.', 'a', 'e', 's', '\x00'] := by
  refine ⟨?_, ?_, ?_, ?_⟩ <;> rfl

/-! ## Evaluation where the powers are exact -/

/-- Where every power is exact the sum of the terms is Horner's value times
the power of the first index. -/
theorem weighted_sum_eq_horner (env : Env) (x : Nat) :
    ∀ (cs : List mpz_t) (i : Nat), (∀ j, j < cs.length → x ^ (i + j) < 2 ^ 53) →
      weighted_sum env x i cs = (x : Int) ^ i * horner (x : Int) cs := by
  intro cs
  induction cs with
  | nil => intro i _; simp [weighted_sum, horner]
  | cons c cs ih =>
    intro i h
    have h0 : x ^ i < 2 ^ 53 := by simpa using h 0 (by simp)
    have hrest : ∀ j, j < cs.length → x ^ (i + 1 + j) < 2 ^ 53 := by
      intro j hj
      have := h (j + 1) (by simpa using hj)
      have e : i + (j + 1) = i + 1 + j := by omega
      rwa [e] at this
    simp only [weighted_sum, horner, multiplier_exact env x i h0, ih (i + 1) hrest]
    push_cast
    ring

/-- C15 (agreement with Horner's method where powers are exact): for every
polynomial of `k >= 1` coefficients and every `x` with `x^(k-1) < 2^53`,
`eval_polynomial` started with `res = 0` returns Horner's nested value
`c0 + x*(c1 + x*(... + x*c(k-1)))`. -/
theorem C15_eval_polynomial_horner (env : Env) (x : Nat) (poly : List mpz_t)
    (hk : 1 ≤ poly.length) (hx : x ^ (poly.length - 1) < 2 ^ 53) :
    eval_polynomial env x poly (poly.length : Int) 0 = .ok (horner (x : Int) poly) := by
  rw [eval_polynomial_eq env x poly (poly.length : Int) 0 (by simp)]
  have h := weighted_sum_eq_horner env x poly 0 (fun j hj => by
    rw [Nat.zero_add]
    exact pow_lt_of_le x j (poly.length - 1) (by omega) hx)
  rw [h]
  simp

/-- Witness of C15: `[7, 5, 3]` at `x = 10` gives `7 + 10*(5 + 10*3) = 357`. -/
theorem C15_eval_polynomial_horner_witness :
    eval_polynomial (env_with 64 fun k => k) 10 [7, 5, 3] (([7, 5, 3] : List mpz_t).length : Int) 0 =
      .ok (horner ((10 : Nat) : Int) [7, 5, 3]) :=
  C15_eval_polynomial_horner (env_with 64 fun k => k) 10 [7, 5, 3] (by decide) (by decide)

/-! ## Lagrange interpolation at 0 -/

/-- Lagrange interpolation at 0 through distinct nodes gives back the value at
0 of every polynomial whose degree is below the number of nodes. -/
theorem lagrange_at_zero (l : List ℚ) (hl : l.Nodup) (P : Polynomial ℚ)
    (hdeg : P.degree < (l.length : WithBot ℕ)) :
    (l.map fun a => P.eval a *
      ((l.filter fun b => b ≠ a).map fun b => ((0 : ℚ) - b) / (a - b)).prod).sum = P.eval 0 := by
  have hcard : l.toFinset.card = l.length := List.toFinset_card_of_nodup hl
  have h := Lagrange.eq_interpolate (s := l.toFinset) (v := id) (f := P)
    (Set.injOn_id _) (by rw [hcard]; exact hdeg)
  have h0 : P.eval 0 = (Lagrange.interpolate l.toFinset id fun i => P.eval (id i)).eval 0 :=
    congrArg (Polynomial.eval 0) h
  rw [h0, Lagrange.interpolate_apply, Polynomial.eval_finset_sum, List.sum_toFinset _ hl]
  congr 1
  apply List.map_congr_left
  intro a _
  rw [Polynomial.eval_mul, Polynomial.eval_C, Lagrange.basis, Polynomial.eval_prod]
  congr 1
  have hf : (l.filter fun b => b ≠ a).Nodup := hl.filter _
  have hset : (l.filter fun b => b ≠ a).toFinset = l.toFinset.erase a := by
    rw [List.toFinset_filter]
    simp only [decide_eq_true_eq]
    exact Finset.filter_ne' _ _
  rw [← hset, List.prod_toFinset _ hf]
  congr 1
  apply List.map_congr_left
  intro b _
  simp only [Lagrange.basisDivisor, Polynomial.eval_mul, Polynomial.eval_C, Polynomial.eval_sub,
    Polynomial.eval_X, id]
  rw [div_eq_mul_inv, mul_comm]

/-- Horner's value of a list of coefficients is the value of a polynomial
with fewer coefficients than the list has elements. -/
theorem exists_polynomial_horner (cs : List mpz_t) :
    ∃ P : Polynomial ℚ, P.degree < (cs.length : WithBot ℕ) ∧
      ∀ a : Int, P.eval (a : ℚ) = ((horner a cs : Int) : ℚ) := by
  induction cs with
  | nil =>
    refine ⟨0, ?_, ?_⟩
    · simp [WithBot.bot_lt_coe]
    · intro a; simp [horner]
  | cons c cs ih =>
    obtain ⟨Q, hQ, hev⟩ := ih
    refine ⟨Polynomial.C (c : ℚ) + Polynomial.X * Q, ?_, ?_⟩
    · rw [Polynomial.degree_lt_iff_coeff_zero] at hQ ⊢
      intro m hm
      obtain ⟨k, rfl⟩ : ∃ k, m = k + 1 := ⟨m - 1, by simp at hm; omega⟩
      rw [Polynomial.coeff_add, Polynomial.coeff_C_succ, Polynomial.coeff_X_mul, zero_add]
      exact hQ k (by simp at hm; omega)
    · intro a
      simp only [Polynomial.eval_add, Polynomial.eval_C, Polynomial.eval_mul, Polynomial.eval_X,
        hev a, horner]
      push_cast
      ring

/-- The reconstruction formula on shares that lie on a polynomial of degree
below their number, at pairwise distinct x, gives the polynomial's value at 0. -/
theorem reconstruct_eq_eval (sel : List SHARE_) (P : Polynomial ℚ)
    (hy : ∀ s ∈ sel, (s.y : ℚ) = P.eval (s.x : ℚ))
    (hx : (sel.map fun s => (s.x : ℚ)).Nodup)
    (hdeg : P.degree < (sel.length : WithBot ℕ)) :
    reconstruct sel = P.eval 0 := by
  have h := lagrange_at_zero (sel.map fun s => (s.x : ℚ)) hx P (by simpa using hdeg)
  rw [← h, reconstruct, List.map_map]
  congr 1
  apply List.map_congr_left
  intro s hs
  simp only [Function.comp_apply]
  rw [hy s hs, List.filter_map, List.map_map]
  have hfilt : sel.filter ((fun b => decide (b ≠ (s.x : ℚ))) ∘ fun r => (r.x : ℚ)) =
      sel.filter fun r => decide (r.x ≠ s.x) := by
    apply List.filter_congr
    intro r _
    simp [Int.cast_inj]
  rw [hfilt]
  rfl

/-- Where `nshares^(nterms-1) < 2^53`, the share at position `i < nshares` is
`(i + 1, Horner's value at i + 1)`. -/
theorem share_at_exact (env : Env) (cs : List mpz_t) (n i : Nat) (hi : i < n)
    (hexact : n ^ (cs.length - 1) < 2 ^ 53) :
    share_at env cs i = ⟨((i + 1 : Nat) : Int), horner ((i + 1 : Nat) : Int) cs⟩ := by
  have h := weighted_sum_eq_horner env (i + 1) cs 0 (fun j hj => by
    rw [Nat.zero_add]
    have h1 : (i + 1) ^ j ≤ n ^ j := Nat.pow_le_pow_left (by omega) j
    have h2 : n ^ j ≤ n ^ (cs.length - 1) := Nat.pow_le_pow_right (by omega) (by omega)
    omega)
  simp only [share_at, h]
  simp

/-- C16 (number of shares that determine the secret): for `2 <= min <= nshares`
with `nshares^(min-2) < 2^53` and a working `/dev/urandom`, whatever the draws,
Lagrange interpolation at 0 over any `min - 1` (or more) distinct shares of
the run gives the secret. -/
theorem C16_threshold_minus_one_suffices (env : Env) (nshares min : Int) (secret : mpz_t)
    (ho : 0 ≤ env.open_result) (hr : 0 ≤ env.read_result)
    (hmin : 2 ≤ min) (hle : min ≤ nshares) (hmax : nshares ≤ INT_MAX)
    (hexact : nshares.toNat ^ (min - 2).toNat < 2 ^ 53) :
    ∃ out, create_shares env nshares min secret = .ok out ∧
      ∀ sel : List SHARE_, (∀ s ∈ sel, s ∈ out.shares) → sel.Nodup →
        min - 1 ≤ (sel.length : Int) → reconstruct sel = (secret : ℚ) := by
  refine ⟨_, create_shares_eq env nshares min secret ho hr hmin hle hmax, ?_⟩
  intro sel hsub hnd hlen
  have hcl : (coefficients env (seed_of env) (min - 1).toNat secret).length = (min - 1).toNat :=
    coefficients_length env _ _ secret (by omega)
  have hex : nshares.toNat ^
      ((coefficients env (seed_of env) (min - 1).toNat secret).length - 1) < 2 ^ 53 := by
    have : (min - 1).toNat - 1 = (min - 2).toNat := by omega
    rw [hcl, this]
    exact hexact
  have hmem : ∀ s ∈ sel, ∃ i, i < nshares.toNat ∧
      s = ⟨((i + 1 : Nat) : Int), horner ((i + 1 : Nat) : Int)
        (coefficients env (seed_of env) (min - 1).toNat secret)⟩ := by
    intro s hs
    have := hsub s hs
    simp only [printed_of, List.mem_map, List.mem_range] at this
    obtain ⟨i, hi, rfl⟩ := this
    exact ⟨i, hi, share_at_exact env _ nshares.toNat i hi hex⟩
  obtain ⟨P, hdeg, hev⟩ :=
    exists_polynomial_horner (coefficients env (seed_of env) (min - 1).toNat secret)
  have hy : ∀ s ∈ sel, (s.y : ℚ) = P.eval (s.x : ℚ) := by
    intro s hs
    obtain ⟨i, _, rfl⟩ := hmem s hs
    exact (hev _).symm
  have hx : (sel.map fun s => (s.x : ℚ)).Nodup := by
    refine List.Nodup.map_on ?_ hnd
    intro a ha b hb hab
    obtain ⟨i, _, rfl⟩ := hmem a ha
    obtain ⟨j, _, rfl⟩ := hmem b hb
    have hab1 : (((i + 1 : Nat) : Int) : ℚ) = (((j + 1 : Nat) : Int) : ℚ) := hab
    have : ((i + 1 : Nat) : Int) = ((j + 1 : Nat) : Int) := Int.cast_injective hab1
    have hij : i = j := by omega
    rw [hij]
  have hd : P.degree < (sel.length : WithBot ℕ) := by
    refine lt_of_lt_of_le hdeg ?_
    rw [hcl]
    exact_mod_cast (show (min - 1).toNat ≤ sel.length by omega)
  rw [reconstruct_eq_eval sel P hy hx hd]
  have h0 := hev 0
  simp only [Int.cast_zero] at h0
  rw [h0]
  simp [coefficients, horner]

/-- Witness of C16: with 5 shares and threshold 3 every two distinct shares
give the secret. -/
theorem C16_threshold_minus_one_suffices_witness :
    ∃ out, create_shares (env_with 64 fun k => k + 7) 5 3 1234 = .ok out ∧
      ∀ sel : List SHARE_, (∀ s ∈ sel, s ∈ out.shares) → sel.Nodup →
        (3 : Int) - 1 ≤ (sel.length : Int) → reconstruct sel = ((1234 : mpz_t) : ℚ) :=
  C16_threshold_minus_one_suffices (env_with 64 fun k => k + 7) 5 3 1234 (by decide) (by decide)
    (by decide) (by decide) (by decide) (by decide)

end Shamir
